import Mathlib

/-!
Verification of the FP-tree frequent-itemset miner
(src/fp_tree_mining/fp_tree_mining.py).

The Python program is embedded shallowly:

* Items are natural numbers (they stand for the string tokens of the input
  files).  Counts are integers, as in Python.
* A Python dict is an association list in insertion order: assignment to an
  existing key updates the value in place, a new key is appended at the end,
  and deletion preserves the order of the remaining keys.  This matches
  CPython dict semantics exactly.
* A frozenset is represented by a duplicate-free list carrying one concrete
  iteration order.  CPython iterates a frozenset in hash order, which for the
  program's string items is arbitrary; the embedding therefore takes the
  iteration order of every input transaction as part of the input.  The one
  place where the program creates fresh frozensets itself (the keys of a
  conditional pattern base) is modelled by a canonical enumeration
  (ascending, duplicate-free); the claims settled below either do not depend
  on that choice or quantify over the input orders explicitly.
* The TreeNode graph (parent pointers, children dict, header chains) is an
  arena: a list of nodes addressed by index, index 0 being the root.  The
  parent, children and nodeLink fields hold indices.  Pointer walks
  (ascendTree, the updateHeader chain walk) take explicit fuel; the
  well-formedness invariants proved below show the fuel used by the
  embedding is always sufficient.
* Python's sorted(...) is a stable sort; it is embedded as a stable insertion
  sort (stable sorts agree on their output, so this is observationally the
  same function).
* mineTree's recursion is embedded with explicit fuel; the termination claim
  is settled as a fuel-stabilisation theorem.
-/

set_option maxHeartbeats 1000000
set_option autoImplicit false

namespace FPMine

/-- One node of the FP-tree arena.  name is none exactly for the root
sentinel (the Python node called Null); parent and nodeLink are arena
indices. -/
structure PNode where
  name : Option Nat
  count : Int
  nodeLink : Option Nat
  parent : Option Nat
  children : List (Nat × Nat)
deriving DecidableEq, Repr

/-- Default node used by the (never exercised) out-of-range arena read. -/
def defNode : PNode := ⟨none, 0, none, none, []⟩

/-- An FP-tree: node arena (index 0 = root) plus the header table.
A header entry is (item, aggregate count, chain head index), kept in
dict insertion order exactly as the Python headerTable. -/
structure FPTree where
  nodes : List PNode
  headerTable : List (Nat × Int × Option Nat)
deriving DecidableEq, Repr

/-- Arena read. -/
def getNode (ns : List PNode) (j : Nat) : PNode := ns.getD j defNode

/-- Arena in-place update. -/
def setNode (ns : List PNode) (j : Nat) (f : PNode → PNode) : List PNode :=
  ns.set j (f (getNode ns j))

/-- Python dict lookup on an association list with Nat keys. -/
def alookup {α : Type} : List (Nat × α) → Nat → Option α
  | [], _ => none
  | (k, v) :: rest, i => if k = i then some v else alookup rest i

/-- Python dict assignment d[i] = v: update in place, else append. -/
def setVal {α : Type} : List (Nat × α) → Nat → α → List (Nat × α)
  | [], i, v => [(i, v)]
  | (k, w) :: rest, i, v =>
    if k = i then (k, v) :: rest else (k, w) :: setVal rest i v

/-- Python d[i] = d.get(i, 0) + c. -/
def bumpCount : List (Nat × Int) → Nat → Int → List (Nat × Int)
  | [], i, c => [(i, c)]
  | (k, v) :: rest, i, c =>
    if k = i then (k, v + c) :: rest else (k, v) :: bumpCount rest i c

/-- Python dict assignment keyed by a frozenset (represented as a canonical
item list): update in place, else append.  Note this models the source's
condPats[frozenset(...)] = count, which REPLACES the stored value. -/
def setListVal : List (List Nat × Int) → List Nat → Int → List (List Nat × Int)
  | [], k, v => [(k, v)]
  | (k0, w) :: rest, k, v =>
    if k0 = k then (k0, v) :: rest else (k0, w) :: setListVal rest k v

/-- Update the chain-head slot of a header entry in place
(Python headerTable[i][1] = node). -/
def setChain : List (Nat × Int × Option Nat) → Nat → Option Nat →
    List (Nat × Int × Option Nat)
  | [], _, _ => []
  | (k, c, h) :: rest, i, nh =>
    if k = i then (k, c, nh) :: rest else (k, c, h) :: setChain rest i nh

/-- First pass of FPTree.__init__: for trans in transactions, for item in
trans, headerTable[item] = headerTable.get(item, 0) + transactions[trans]. -/
def countItems (D : List (List Nat × Int)) : List (Nat × Int) :=
  D.foldl (fun h p => p.1.foldl (fun h2 i => bumpCount h2 i p.2) h) []

/-- Stable descending insertion by count (the sorted(..., reverse=True) of
the source; stable sorts are unique, so any stable implementation is the
same function). -/
def insD (x : Nat × Int) : List (Nat × Int) → List (Nat × Int)
  | [] => [x]
  | y :: ys => if y.2 ≤ x.2 then x :: y :: ys else y :: insD x ys

/-- Stable sort by count, descending (Python sorted with reverse=True). -/
def sortDesc : List (Nat × Int) → List (Nat × Int)
  | [] => []
  | x :: xs => insD x (sortDesc xs)

/-- Stable ascending insertion by count. -/
def insA (x : Nat × Int) : List (Nat × Int) → List (Nat × Int)
  | [] => [x]
  | y :: ys => if x.2 ≤ y.2 then x :: y :: ys else y :: insA x ys

/-- Stable sort by count, ascending (Python sorted in mineTree). -/
def sortAsc : List (Nat × Int) → List (Nat × Int)
  | [] => []
  | x :: xs => insA x (sortAsc xs)

/-- Ascending insertion for plain naturals (canonical frozenset order). -/
def insNat (x : Nat) : List Nat → List Nat
  | [] => [x]
  | y :: ys => if x ≤ y then x :: y :: ys else y :: insNat x ys

/-- Sort a list of naturals ascending. -/
def sortNat : List Nat → List Nat
  | [] => []
  | x :: xs => insNat x (sortNat xs)

/-- Canonical representation of the frozenset of a list of items:
duplicate-free, ascending. -/
def asFrozen (l : List Nat) : List Nat := sortNat l.dedup

/-- The localD dict of FPTree.__init__: filter a transaction to the items
present in the header table, recording their aggregate counts, in the
transaction's iteration order. -/
def buildLocalD (H : List (Nat × Int × Option Nat)) (t : List Nat) :
    List (Nat × Int) :=
  t.foldl (fun d i =>
    match alookup H i with
    | some e => setVal d i e.1
    | none => d) []

/-- The while-loop of FPTree.updateHeader: walk nodeLink references to the
end of a chain.  Fuel bounds the walk; chains in well-formed arenas are
strictly increasing in index, so fuel = arena size always suffices. -/
def lastChain (ns : List PNode) : Nat → Nat → Nat
  | 0, j => j
  | f + 1, j =>
    match (getNode ns j).nodeLink with
    | none => j
    | some k => lastChain ns f k

/-- Link a freshly created node with index newIdx into item i's header
chain (the else-branch of FPTree.updateTree).  The none lookup case never
happens for the program's calls (Python would raise KeyError there). -/
def linkNode (st : FPTree) (i : Nat) (newIdx : Nat) : FPTree :=
  match alookup st.headerTable i with
  | none => st
  | some (_, none) => ⟨st.nodes, setChain st.headerTable i (some newIdx)⟩
  | some (_, some head) =>
    let last := lastChain st.nodes st.nodes.length head
    ⟨setNode st.nodes last (fun n => { n with nodeLink := some newIdx }),
      st.headerTable⟩

/-- Body of one step of FPTree.updateTree for the head item: increment an
existing child, or create a new child node and link it into the header
chain of its item. -/
def processItem (st : FPTree) (i : Nat) (inNode : Nat) (count : Int) :
    FPTree :=
  match alookup (getNode st.nodes inNode).children i with
  | some c =>
    ⟨setNode st.nodes c (fun n => { n with count := n.count + count }),
      st.headerTable⟩
  | none =>
    let newIdx := st.nodes.length
    let ns1 := setNode st.nodes inNode
      (fun n => { n with children := n.children ++ [(i, newIdx)] })
    linkNode ⟨ns1 ++ [⟨some i, count, none, some inNode, []⟩],
      st.headerTable⟩ i newIdx

/-- FPTree.updateTree: insert an ordered item sequence below node inNode,
sharing prefixes.  The [] case is never reached by the program (Python
would fail on items[0]; see the checked variant updateTreeC below). -/
def updateTree (st : FPTree) (items : List Nat) (inNode : Nat)
    (count : Int) : FPTree :=
  match items with
  | [] => st
  | i :: rest =>
    let st1 := processItem st i inNode count
    if rest.isEmpty then st1
    else
      match alookup (getNode st1.nodes inNode).children i with
      | some c => updateTree st1 rest c count
      | none => st1

/-- The root sentinel node (TreeNode('Null', 1, None)). -/
def rootNode : PNode := ⟨none, 1, none, none, []⟩

/-- FPTree.__init__, i.e. the buildTree entry point of the spec: count item
occurrences, drop items below minSup, then insert every transaction
(restricted to surviving items, stably sorted by descending aggregate
count) into the tree. -/
def buildTree (D : List (List Nat × Int)) (minSup : Int) : FPTree :=
  let counted := countItems D
  let filtered := counted.filter (fun p => decide (minSup ≤ p.2))
  if filtered.isEmpty then ⟨[rootNode], []⟩
  else
    let header0 := filtered.map (fun p => (p.1, p.2, (none : Option Nat)))
    D.foldl (fun st p =>
      let localD := buildLocalD st.headerTable p.1
      if localD.isEmpty then st
      else updateTree st ((sortDesc localD).map (·.1)) 0 p.2)
      ⟨[rootNode], header0⟩

/-- FPTree.ascendTree: collect the names of a node and its ancestors,
stopping at (and excluding) the root.  Fuel bounds the walk; parents in
well-formed arenas have strictly smaller index, so fuel = arena size
always suffices. -/
def ascendNames (ns : List PNode) : Nat → Nat → List Nat
  | 0, _ => []
  | f + 1, j =>
    match (getNode ns j).parent with
    | none => []
    | some p => (getNode ns j).name.getD 0 :: ascendNames ns f p

/-- Walk a header chain from its head, collecting the visited indices. -/
def chainIdxs (ns : List PNode) : Nat → Option Nat → List Nat
  | _, none => []
  | 0, some _ => []
  | f + 1, some j => j :: chainIdxs ns f (getNode ns j).nodeLink

/-- The chain head stored for item i (Python headerTable[basePat][1];
the none case is a KeyError in Python and never reached). -/
def chainHeadOf (t : FPTree) (i : Nat) : Option Nat :=
  match alookup t.headerTable i with
  | some e => e.2
  | none => none

/-- FPTree.findPrefixPath: walk item basePat's chain; for every chain node
whose ascending path has more than one entry, assign (not add!) the node's
count to the frozenset of the path without its first element. -/
def findPrefixPath (t : FPTree) (basePat : Nat) : List (List Nat × Int) :=
  (chainIdxs t.nodes t.nodes.length (chainHeadOf t basePat)).foldl
    (fun acc j =>
      let path := ascendNames t.nodes t.nodes.length j
      if 1 < path.length then
        setListVal acc (asFrozen path.tail) (getNode t.nodes j).count
      else acc) []

/-- FPTree.mineTree with explicit recursion fuel: emit every header item in
ascending-count order (stable), then build and mine its conditional tree.
The accumulator is threaded exactly like the Python freqItemList. -/
def mineTree : Nat → FPTree → Int → Finset Nat → List (Finset Nat) →
    List (Finset Nat)
  | 0, _, _, _, acc => acc
  | fuel + 1, t, minSup, pre, acc =>
    let bigL := (sortAsc (t.headerTable.map (fun p => (p.1, p.2.1)))).map (·.1)
    bigL.foldl (fun acc2 basePat =>
      let newFreqSet := insert basePat pre
      let acc3 := acc2 ++ [newFreqSet]
      let condTree := buildTree (findPrefixPath t basePat) minSup
      if condTree.headerTable.isEmpty then acc3
      else mineTree fuel condTree minSup newFreqSet acc3) acc

/-- The item occurrence stream of the input (transactions concatenated). -/
def itemOccs (D : List (List Nat × Int)) : List Nat := (D.map (·.1)).flatten

/-- First-occurrence deduplication, i.e. the key order a Python dict builds
when fed the occurrence stream. -/
def dedupFirst (l : List Nat) : List Nat :=
  l.foldl (fun acc i => if i ∈ acc then acc else acc ++ [i]) []

/-- The whole pipeline of main(): build the tree, then mine it starting
from the empty prefix and empty accumulator.  The fuel (one more than the
number of distinct items) is sufficient: see the termination theorem. -/
def mineAll (D : List (List Nat × Int)) (s : Int) : List (Finset Nat) :=
  mineTree ((dedupFirst (itemOccs D)).length + 1) (buildTree D s) s ∅ []

/-- Item list of the header table (dict key view). -/
def headerKeys (t : FPTree) : List Nat := t.headerTable.map (·.1)

/-- Weighted support of a single item: sum of the counts of the input
transactions containing it (glossary sense of the spec). -/
def itemSupport (D : List (List Nat × Int)) (i : Nat) : Int :=
  (D.map (fun p => if i ∈ p.1 then p.2 else 0)).sum

/-- Weighted support of an itemset: sum of the counts of the input
transactions that are supersets of it (glossary sense of the spec). -/
def setSupport (D : List (List Nat × Int)) (S : Finset Nat) : Int :=
  (D.map (fun p => if S ⊆ p.1.toFinset then p.2 else 0)).sum

/-- Brute-force reference: all non-empty subsets of the occurring
vocabulary whose weighted support reaches the threshold. -/
def bruteFrequent (D : List (List Nat × Int)) (s : Int) :
    Finset (Finset Nat) :=
  (itemOccs D).toFinset.powerset.filter
    (fun S => S ≠ ∅ ∧ s ≤ setSupport D S)

end FPMine

namespace FPMine

/-- Conditional-pattern-base extraction as the spec describes it (section
4.2): identical to findPrefixPath except that weights of a recurring
ancestor set are MERGED (added).  Modelled from the spec: merging weights
when the same ancestor set recurs from different chain nodes. -/
def addListVal : List (List Nat × Int) → List Nat → Int → List (List Nat × Int)
  | [], k, v => [(k, v)]
  | (k0, w) :: rest, k, v =>
    if k0 = k then (k0, w + v) :: rest else (k0, w) :: addListVal rest k v

/-- Merged-weight variant of findPrefixPath, following the spec text of
section 4.2 rather than the source. -/
def mergedPatternBase (t : FPTree) (basePat : Nat) : List (List Nat × Int) :=
  (chainIdxs t.nodes t.nodes.length (chainHeadOf t basePat)).foldl
    (fun acc j =>
      let path := ascendNames t.nodes t.nodes.length j
      if 1 < path.length then
        addListVal acc (asFrozen path.tail) (getNode t.nodes j).count
      else acc) []

/-- The input refuting completeness: the multiset containing the sets
of items 1 2 3 and of items 1 2 4, once each, where the two frozensets
enumerate the shared equally-frequent items 1 and 2 in opposite orders
(a reachable pair of CPython iteration orders for string items). -/
def cexD : List (List Nat × Int) := [([1, 2, 3], 1), ([2, 1, 4], 1)]

/-- The input refuting merge semantics of findPrefixPath: two branches
whose paths to item 5 carry the same ancestor SET of items 1 and 2 in
different orders. -/
def cexMergeD : List (List Nat × Int) := [([1, 2, 5], 1), ([2, 1, 5], 2)]

/-- Key view of an association list (Python dict key order). -/
def keysOf {α : Type} (l : List (Nat × α)) : List Nat := l.map (·.1)

/-- Items and aggregate counts of a header table, chain heads dropped. -/
def headerShape (H : List (Nat × Int × Option Nat)) : List (Nat × Int) :=
  H.map (fun p => (p.1, p.2.1))

/-- Checked variant of updateTree: identical computation, but returns none
exactly when some invocation (outer or recursive) receives an empty item
sequence — the situation in which the Python items[0] access would raise.
Used to prove that situation unreachable. -/
def updateTreeC (st : FPTree) (items : List Nat) (inNode : Nat)
    (count : Int) : Option FPTree :=
  match items with
  | [] => none
  | i :: rest =>
    let st1 := processItem st i inNode count
    if rest.isEmpty then some st1
    else
      match alookup (getNode st1.nodes inNode).children i with
      | some c => updateTreeC st1 rest c count
      | none => some st1

/-- Checked variant of buildTree built on updateTreeC. -/
def buildTreeC (D : List (List Nat × Int)) (minSup : Int) : Option FPTree :=
  let counted := countItems D
  let filtered := counted.filter (fun p => decide (minSup ≤ p.2))
  if filtered.isEmpty then some ⟨[rootNode], []⟩
  else
    let header0 := filtered.map (fun p => (p.1, p.2, (none : Option Nat)))
    D.foldl (fun o p => o.bind (fun st =>
      let localD := buildLocalD st.headerTable p.1
      if localD.isEmpty then some st
      else updateTreeC st ((sortDesc localD).map (·.1)) 0 p.2))
      (some ⟨[rootNode], header0⟩)

/-- Parent indices strictly precede their children in the arena. -/
def parentsLt (ns : List PNode) : Prop :=
  ∀ j, j < ns.length → ∀ p, (getNode ns j).parent = some p → p < j

/-- Chain links strictly increase and stay inside the arena. -/
def linksLt (ns : List PNode) : Prop :=
  ∀ j, j < ns.length → ∀ k, (getNode ns j).nodeLink = some k →
    j < k ∧ k < ns.length

/-- Canonical ascent path of a node (ascendTree with fuel = arena size). -/
def pathOf (ns : List PNode) (j : Nat) : List Nat :=
  ascendNames ns ns.length j

/-- Canonical chain of an item (walk with fuel = arena size). -/
def chainOf (t : FPTree) (i : Nat) : List Nat :=
  chainIdxs t.nodes t.nodes.length (chainHeadOf t i)

/-- Structural well-formedness of a tree, as established for every tree the
program builds: a single root sentinel at index 0, parent pointers that go
strictly down in creation order, non-root nodes labelled by header items,
duplicate-free ascent paths, strictly increasing chain links, and chains
that enumerate exactly the nodes bearing their item, in creation order. -/
structure WF (t : FPTree) : Prop where
  nz : t.nodes ≠ []
  rootPar : (getNode t.nodes 0).parent = none
  rootNm : (getNode t.nodes 0).name = none
  par : parentsLt t.nodes
  rootOnly : ∀ j, j < t.nodes.length → (getNode t.nodes j).parent = none →
    j = 0
  nameKeys : ∀ j, 0 < j → j < t.nodes.length →
    ∃ a, (getNode t.nodes j).name = some a ∧ a ∈ headerKeys t
  pathsOk : ∀ j, j < t.nodes.length → (pathOf t.nodes j).Nodup
  lnk : linksLt t.nodes
  childOk : ∀ j, j < t.nodes.length → ∀ i c,
    (i, c) ∈ (getNode t.nodes j).children →
    c < t.nodes.length ∧ (getNode t.nodes c).parent = some j ∧
      (getNode t.nodes c).name = some i
  chains : ∀ a, chainOf t a =
    (List.range t.nodes.length).filter
      (fun j => decide ((getNode t.nodes j).name = some a))

end FPMine

namespace FPMine

/-- Claim C1 (code bug witnessed): on the transaction multiset cexD at
threshold 2 the miner emits exactly the singletons of 1 and 2, while
brute-force enumeration additionally contains the pair of 1 and 2, whose
weighted support is 2 and meets the threshold.  The equal aggregate counts
of 1 and 2 are tie-broken by the incidental per-transaction enumeration
order, the two transactions order them inconsistently, and the pair's
support is split across two tree branches, so mining misses it. -/
theorem completeness_fails_on_cexD :
    mineAll cexD 2 = [{1}, {2}] ∧
    ({1, 2} : Finset Nat) ∈ bruteFrequent cexD 2 ∧
    ({1, 2} : Finset Nat) ∉ (mineAll cexD 2).toFinset ∧
    (mineAll cexD 2).toFinset ≠ bruteFrequent cexD 2 ∧
    setSupport cexD {1, 2} = 2 := by decide

/-- Claim C2 (code bug witnessed): in the tree built from cexMergeD at
threshold 1, item 5's chain has two nodes whose ancestor sets are both the
set of items 1 and 2 (reached in different orders), with counts 1 and 2;
the source's dict assignment keeps only the LAST count 2, whereas the
spec's merge semantics (mergedPatternBase) yields the sum 3. -/
theorem prefix_path_weight_replaced_not_merged :
    findPrefixPath (buildTree cexMergeD 1) 5 = [([1, 2], 2)] ∧
    mergedPatternBase (buildTree cexMergeD 1) 5 = [([1, 2], 3)] := by decide

/-- Claim C3 (counterexample): with the malformed threshold 0 and an input
containing an empty itemset, buildTree does not fail; it silently skips the
empty transaction, gives item 1 a header entry, and creates a tree node for
it — construction work completes instead of being rejected.  A negative
transaction count is likewise accepted silently. -/
theorem no_validation_counterexample :
    headerKeys (buildTree [([], 2), ([1], 3)] 0) = [1] ∧
    (buildTree [([], 2), ([1], 3)] 0).nodes.length = 2 ∧
    (buildTree [([1], -5)] 1).headerTable = [] ∧
    (buildTree [([1], -5)] 1).nodes.length = 1 := by decide

/-- Claim C4 (counterexample): the same transaction multiset (the single
set of items 1 and 2, count 1) enumerated in its two possible iteration
orders produces two different emission sequences, so the equal-frequency
tie-break is the incidental enumeration order, not a fixed reproducible
secondary key of the multiset. -/
theorem tie_break_not_canonical :
    ([1, 2] : List Nat).toFinset = ([2, 1] : List Nat).toFinset ∧
    mineAll [([1, 2], 1)] 1 ≠ mineAll [([2, 1], 1)] 1 := by decide

end FPMine

namespace FPMine

theorem alookup_isSome_iff {α : Type} (h : List (Nat × α)) (x : Nat) :
    (alookup h x).isSome ↔ x ∈ keysOf h := by
  induction h with
  | nil => simp [alookup, keysOf]
  | cons p rest ih =>
    obtain ⟨k, v⟩ := p
    have hkeys : keysOf ((k, v) :: rest) = k :: keysOf rest := rfl
    rw [hkeys, List.mem_cons]
    simp only [alookup]
    by_cases hk : k = x
    · subst hk; simp
    · rw [if_neg hk, ih]
      constructor
      · exact Or.inr
      · rintro (rfl | h1)
        · exact absurd rfl hk
        · exact h1

theorem alookup_eq_none_iff {α : Type} (h : List (Nat × α)) (x : Nat) :
    alookup h x = none ↔ x ∉ keysOf h := by
  rw [← alookup_isSome_iff, Option.isSome_iff_ne_none]
  tauto

theorem alookup_bumpCount (h : List (Nat × Int)) (j : Nat) (c : Int)
    (x : Nat) :
    alookup (bumpCount h j c) x =
      if x = j then some ((alookup h j).getD 0 + c) else alookup h x := by
  induction h with
  | nil =>
    by_cases hx : x = j
    · subst hx; simp [bumpCount, alookup]
    · have hjx : ¬ j = x := fun he => hx he.symm
      simp [bumpCount, alookup, hx, hjx]
  | cons p rest ih =>
    obtain ⟨k, v⟩ := p
    by_cases hk : k = j
    · subst hk
      by_cases hx : x = k
      · subst hx
        simp [bumpCount, alookup]
      · have hkx : ¬ k = x := fun he => hx he.symm
        simp [bumpCount, alookup, hx, hkx]
    · by_cases hx : k = x
      · subst hx
        have hkj : ¬ k = j := hk
        simp [bumpCount, alookup, hkj, ih]
      · have hxk : ¬ x = k := fun he => hx he.symm
        simp [bumpCount, alookup, hk, hx, ih]

theorem keysOf_bumpCount (h : List (Nat × Int)) (j : Nat) (c : Int) :
    keysOf (bumpCount h j c) =
      if j ∈ keysOf h then keysOf h else keysOf h ++ [j] := by
  induction h with
  | nil => simp [bumpCount, keysOf]
  | cons p rest ih =>
    obtain ⟨k, v⟩ := p
    have hkeys : ∀ w : Int, keysOf ((k, w) :: rest) = k :: keysOf rest :=
      fun w => rfl
    by_cases hk : k = j
    · subst hk
      simp [bumpCount, keysOf]
    · have hjk : ¬ j = k := fun he => hk he.symm
      have hstep : keysOf (bumpCount ((k, v) :: rest) j c) =
          k :: keysOf (bumpCount rest j c) := by
        rw [bumpCount, if_neg hk]; rfl
      rw [hstep, ih, hkeys]
      by_cases hj : j ∈ keysOf rest
      · rw [if_pos hj, if_pos (List.mem_cons_of_mem _ hj)]
      · have hnotc : j ∉ k :: keysOf rest := by
          rw [List.mem_cons]; tauto
        rw [if_neg hj, if_neg hnotc, List.cons_append]

theorem inner_lookup (l : List Nat) (c : Int) :
    ∀ (h : List (Nat × Int)) (x : Nat), l.Nodup →
      alookup (l.foldl (fun h2 i => bumpCount h2 i c) h) x =
        if x ∈ l then some ((alookup h x).getD 0 + c) else alookup h x := by
  induction l with
  | nil => intro h x _; simp
  | cons i l ih =>
    intro h x hnd
    rw [List.foldl_cons, ih _ x hnd.of_cons]
    by_cases hx : x ∈ l
    · have hxi : x ≠ i := by
        rintro rfl; exact (List.nodup_cons.mp hnd).1 hx
      rw [if_pos hx, if_pos (List.mem_cons_of_mem _ hx),
        alookup_bumpCount, if_neg hxi]
    · by_cases hxi : x = i
      · subst hxi
        rw [if_neg hx, if_pos (List.mem_cons_self _ _),
          alookup_bumpCount, if_pos rfl]
      · have hmem : x ∉ i :: l := by
          rw [List.mem_cons]; tauto
        rw [if_neg hx, if_neg hmem, alookup_bumpCount, if_neg hxi]

theorem inner_keys (l : List Nat) (c : Int) :
    ∀ h, keysOf (l.foldl (fun h2 i => bumpCount h2 i c) h) =
      l.foldl (fun ks i => if i ∈ ks then ks else ks ++ [i]) (keysOf h) := by
  induction l with
  | nil => intro h; simp
  | cons i l ih =>
    intro h
    rw [List.foldl_cons, List.foldl_cons, ih, keysOf_bumpCount]

theorem dedupFold_mem (l : List Nat) :
    ∀ (ks : List Nat) (x : Nat),
      x ∈ l.foldl (fun ks i => if i ∈ ks then ks else ks ++ [i]) ks ↔
        x ∈ ks ∨ x ∈ l := by
  induction l with
  | nil => intro ks x; simp
  | cons i l ih =>
    intro ks x
    rw [List.foldl_cons, ih]
    by_cases hi : i ∈ ks
    · rw [if_pos hi]
      simp only [List.mem_cons]
      constructor
      · rintro (h | h)
        · exact Or.inl h
        · exact Or.inr (Or.inr h)
      · rintro (h | rfl | h)
        · exact Or.inl h
        · exact Or.inl hi
        · exact Or.inr h
    · rw [if_neg hi]
      simp only [List.mem_append, List.mem_singleton, List.mem_cons]
      tauto

theorem dedupFold_nodup (l : List Nat) :
    ∀ ks : List Nat, ks.Nodup →
      (l.foldl (fun ks i => if i ∈ ks then ks else ks ++ [i]) ks).Nodup := by
  induction l with
  | nil => intro ks h; simpa
  | cons i l ih =>
    intro ks hks
    rw [List.foldl_cons]
    apply ih
    by_cases hi : i ∈ ks
    · rwa [if_pos hi]
    · rw [if_neg hi]
      have hdisj : ks.Disjoint [i] := by
        intro a ha hb
        rw [List.mem_singleton] at hb
        exact hi (hb ▸ ha)
      exact hks.append (List.nodup_singleton i) hdisj

theorem outer_cnt (D : List (List Nat × Int)) :
    ∀ (h : List (Nat × Int)) (x : Nat), (∀ p ∈ D, p.1.Nodup) →
      (alookup (D.foldl
          (fun h p => p.1.foldl (fun h2 i => bumpCount h2 i p.2) h) h) x).getD 0
        = (alookup h x).getD 0 + itemSupport D x := by
  induction D with
  | nil => intro h x _; simp [itemSupport]
  | cons p D ih =>
    intro h x hnd
    rw [List.foldl_cons,
      ih _ x (fun q hq => hnd q (List.mem_cons_of_mem _ hq)),
      inner_lookup p.1 p.2 h x (hnd p (List.mem_cons_self _ _))]
    by_cases hx : x ∈ p.1 <;> simp [hx, itemSupport] <;> ring

theorem outer_keys (D : List (List Nat × Int)) :
    ∀ h, keysOf (D.foldl
        (fun h p => p.1.foldl (fun h2 i => bumpCount h2 i p.2) h) h)
      = (itemOccs D).foldl (fun ks i => if i ∈ ks then ks else ks ++ [i])
          (keysOf h) := by
  induction D with
  | nil => intro h; simp [itemOccs]
  | cons p D ih =>
    intro h
    rw [List.foldl_cons, ih, inner_keys]
    simp [itemOccs, List.foldl_append]

theorem countItems_keys (D : List (List Nat × Int)) :
    keysOf (countItems D) = dedupFirst (itemOccs D) := by
  rw [countItems, outer_keys]
  simp [dedupFirst, keysOf]

theorem countItems_keys_nodup (D : List (List Nat × Int)) :
    (keysOf (countItems D)).Nodup := by
  rw [countItems_keys]
  exact dedupFold_nodup _ [] List.nodup_nil

theorem alookup_countItems (D : List (List Nat × Int)) (x : Nat)
    (hnd : ∀ p ∈ D, p.1.Nodup) :
    (alookup (countItems D) x).getD 0 = itemSupport D x := by
  rw [countItems, outer_cnt D [] x hnd]
  simp [alookup]

theorem itemSupport_eq_zero (D : List (List Nat × Int)) (x : Nat)
    (hx : x ∉ itemOccs D) : itemSupport D x = 0 := by
  induction D with
  | nil => simp [itemSupport]
  | cons p D ih =>
    rw [itemSupport, List.map_cons, List.sum_cons]
    have hx1 : x ∉ p.1 := fun h => hx (by simp [itemOccs]; exact Or.inl h)
    have hx2 : x ∉ itemOccs D := fun h => hx (by
      simp [itemOccs] at h ⊢
      exact Or.inr h)
    rw [if_neg hx1, ← itemSupport, ih hx2, zero_add]

theorem mem_countItems_keys (D : List (List Nat × Int)) (x : Nat) :
    x ∈ keysOf (countItems D) ↔ x ∈ itemOccs D := by
  rw [countItems_keys, dedupFirst, dedupFold_mem]
  simp

theorem headerShape_setChain (H : List (Nat × Int × Option Nat)) (i : Nat)
    (nh : Option Nat) : headerShape (setChain H i nh) = headerShape H := by
  induction H with
  | nil => simp [setChain]
  | cons p rest ih =>
    obtain ⟨k, c, h⟩ := p
    by_cases hk : k = i <;> simp [setChain, hk, headerShape] <;>
      simpa [headerShape] using ih

theorem linkNode_header (st : FPTree) (i n : Nat) :
    headerShape (linkNode st i n).headerTable =
      headerShape st.headerTable := by
  rcases h : alookup st.headerTable i with _ | ⟨c, _ | hd⟩ <;>
    simp [linkNode, h, headerShape_setChain]

theorem processItem_header (st : FPTree) (i inNode : Nat) (c : Int) :
    headerShape (processItem st i inNode c).headerTable =
      headerShape st.headerTable := by
  cases hc : alookup (getNode st.nodes inNode).children i with
  | some c0 => simp only [processItem, hc]
  | none =>
    simp only [processItem, hc]
    exact linkNode_header _ _ _

theorem updateTree_header :
    ∀ (items : List Nat) (st : FPTree) (inNode : Nat) (c : Int),
      headerShape (updateTree st items inNode c).headerTable =
        headerShape st.headerTable := by
  intro items
  induction items with
  | nil => intro st inNode c; simp [updateTree]
  | cons i rest ih =>
    intro st inNode c
    rw [updateTree]
    by_cases hr : rest.isEmpty
    · rw [if_pos hr, processItem_header]
    · rw [if_neg hr]
      split
      · rw [ih, processItem_header]
      · rw [processItem_header]

theorem buildFold_header (D : List (List Nat × Int)) :
    ∀ st : FPTree,
      headerShape ((D.foldl (fun st p =>
        if (buildLocalD st.headerTable p.1).isEmpty then st
        else updateTree st
          ((sortDesc (buildLocalD st.headerTable p.1)).map (·.1)) 0 p.2)
        st)).headerTable
      = headerShape st.headerTable := by
  induction D with
  | nil => intro st; rfl
  | cons p D ih =>
    intro st
    rw [List.foldl_cons, ih]
    by_cases hl : (buildLocalD st.headerTable p.1).isEmpty
    · rw [if_pos hl]
    · rw [if_neg hl, updateTree_header]

theorem buildTree_header (D : List (List Nat × Int)) (s : Int) :
    headerShape (buildTree D s).headerTable =
      (countItems D).filter (fun p => decide (s ≤ p.2)) := by
  simp only [buildTree]
  split
  · rename_i hft
    rw [List.isEmpty_iff] at hft
    simp [headerShape, hft]
  · rename_i hft
    rw [buildFold_header]
    simp [headerShape, List.map_map, Function.comp_def]

theorem headerKeys_eq_keysOf (t : FPTree) :
    headerKeys t = keysOf (headerShape t.headerTable) := by
  simp [headerKeys, keysOf, headerShape, List.map_map, Function.comp]

theorem filterMap_keys (s : Int) :
    ∀ h : List (Nat × Int), (keysOf h).Nodup →
      keysOf (h.filter (fun p => decide (s ≤ p.2))) =
        (keysOf h).filter (fun i => decide (s ≤ (alookup h i).getD 0)) := by
  intro h
  induction h with
  | nil => intro _; simp [keysOf]
  | cons p rest ih =>
    intro hnd
    obtain ⟨k, v⟩ := p
    have hnd2 := List.nodup_cons.mp (show (k :: keysOf rest).Nodup from hnd)
    have hcongr : (keysOf rest).filter
        (fun i => decide (s ≤ (alookup ((k, v) :: rest) i).getD 0)) =
        (keysOf rest).filter
          (fun i => decide (s ≤ (alookup rest i).getD 0)) := by
      apply List.filter_congr
      intro i hi
      have hki : ¬ k = i := fun he => hnd2.1 (he ▸ hi)
      simp [alookup, hki]
    have e2 : keysOf ((k, v) :: rest) = k :: keysOf rest := rfl
    have hhead : (alookup ((k, v) :: rest) k).getD 0 = v := by simp [alookup]
    rw [e2]
    simp only [List.filter_cons]
    rw [hhead]
    by_cases hf : s ≤ v
    · rw [if_pos (decide_eq_true hf), if_pos (decide_eq_true hf)]
      have e3 : keysOf ((k, v) :: rest.filter (fun p => decide (s ≤ p.2))) =
          k :: keysOf (rest.filter (fun p => decide (s ≤ p.2))) := rfl
      rw [e3, ih hnd2.2, hcongr]
    · have hnf : ¬ decide (s ≤ v) = true := by simpa using hf
      rw [if_neg hnf, if_neg hnf, ih hnd2.2, hcongr]

theorem headerKeys_buildTree (D : List (List Nat × Int)) (s : Int)
    (hnd : ∀ p ∈ D, p.1.Nodup) :
    headerKeys (buildTree D s) =
      (dedupFirst (itemOccs D)).filter
        (fun i => decide (s ≤ itemSupport D i)) := by
  rw [headerKeys_eq_keysOf, buildTree_header,
    filterMap_keys s (countItems D) (countItems_keys_nodup D),
    countItems_keys]
  apply List.filter_congr
  intro i _
  rw [alookup_countItems D i hnd]

end FPMine

namespace FPMine

theorem mem_dedupFirst (l : List Nat) (x : Nat) :
    x ∈ dedupFirst l ↔ x ∈ l := by
  rw [dedupFirst, dedupFold_mem]
  simp

theorem length_insD (x : Nat × Int) (l : List (Nat × Int)) :
    (insD x l).length = l.length + 1 := by
  induction l with
  | nil => rfl
  | cons y ys ih =>
    rw [insD]
    by_cases hy : y.2 ≤ x.2
    · rw [if_pos hy]; rfl
    · rw [if_neg hy]
      simp [ih]

theorem length_sortDesc (l : List (Nat × Int)) :
    (sortDesc l).length = l.length := by
  induction l with
  | nil => rfl
  | cons x xs ih =>
    rw [sortDesc, length_insD, ih]
    rfl

theorem foldl_hom_append {β : Type} (step : List (Finset Nat) → β →
    List (Finset Nat)) (hstep : ∀ a b, step a b = a ++ step [] b) :
    ∀ (L : List β) (acc : List (Finset Nat)),
      L.foldl step acc = acc ++ L.foldl step [] := by
  intro L
  induction L with
  | nil => intro acc; simp
  | cons b L ih =>
    intro acc
    rw [List.foldl_cons, List.foldl_cons, ih, ih (step [] b), hstep acc b,
      List.append_assoc]

end FPMine

namespace FPMine

/-- Claim C5: in a tree built at a positive threshold, a header entry for
an item exists exactly when the weighted sum of the counts of input
transactions containing it reaches the threshold. -/
theorem header_entry_iff_support (D : List (List Nat × Int)) (s : Int)
    (i : Nat) (hs : 0 < s) (hnd : ∀ p ∈ D, p.1.Nodup) :
    i ∈ headerKeys (buildTree D s) ↔ s ≤ itemSupport D i := by
  rw [headerKeys_buildTree D s hnd, List.mem_filter]
  constructor
  · rintro ⟨_, h2⟩
    simpa using h2
  · intro h
    refine ⟨?_, by simpa using h⟩
    by_contra hni
    have hocc : i ∉ itemOccs D := fun hmem =>
      hni ((mem_dedupFirst (itemOccs D) i).mpr hmem)
    rw [itemSupport_eq_zero D i hocc] at h
    exact absurd (lt_of_lt_of_le hs h) (lt_irrefl 0)

/-- Witness for C5 at a concrete input. -/
theorem header_entry_iff_support_witness :
    1 ∈ headerKeys (buildTree [([1, 2], 1), ([1], 1)] 2) ↔
      (2 : Int) ≤ itemSupport [([1, 2], 1), ([1], 1)] 1 :=
  header_entry_iff_support [([1, 2], 1), ([1], 1)] 2 1 (by decide) (by decide)

/-- Claim C4 (amended, positive part): the secondary key that the stable
sorts actually use is the header table's dict insertion order, which is the
first-occurrence order of items in the enumerated input; the header is that
order filtered to items meeting the threshold.  It is reproducible only
relative to a fixed enumeration of the multiset, not canonical in the
multiset itself (see the counterexample). -/
theorem tie_break_is_first_occurrence (D : List (List Nat × Int)) (s : Int)
    (hnd : ∀ p ∈ D, p.1.Nodup) :
    headerKeys (buildTree D s) =
      (dedupFirst (itemOccs D)).filter
        (fun i => decide (s ≤ itemSupport D i)) :=
  headerKeys_buildTree D s hnd

/-- Witness for the amended C4 at a concrete input. -/
theorem tie_break_is_first_occurrence_witness :
    headerKeys (buildTree [([2, 1], 1), ([1], 1)] 1) =
      (dedupFirst (itemOccs [([2, 1], 1), ([1], 1)])).filter
        (fun i => decide ((1 : Int) ≤ itemSupport [([2, 1], 1), ([1], 1)] i)) :=
  tie_break_is_first_occurrence [([2, 1], 1), ([1], 1)] 1 (by decide)

/-- Claim C3 (amended, positive part): construction performs no input
validation and never fails.  With a non-positive threshold and non-negative
counts, every occurring item passes the support filter and receives a
header entry; empty itemsets contribute nothing and are silently skipped. -/
theorem construction_accepts_all (D : List (List Nat × Int)) (s : Int)
    (hs : s ≤ 0) (hpos : ∀ p ∈ D, 0 ≤ p.2) (hnd : ∀ p ∈ D, p.1.Nodup) :
    headerKeys (buildTree D s) = dedupFirst (itemOccs D) := by
  rw [headerKeys_buildTree D s hnd]
  apply List.filter_eq_self.mpr
  intro i _
  simp only [decide_eq_true_eq]
  have h0 : 0 ≤ itemSupport D i := by
    apply List.sum_nonneg
    intro x hx
    rw [List.mem_map] at hx
    obtain ⟨p, hp, rfl⟩ := hx
    by_cases hm : i ∈ p.1
    · simpa [hm] using hpos p hp
    · simp [hm]
  exact le_trans hs h0

/-- Witness for the amended C3 at a concrete input. -/
theorem construction_accepts_all_witness :
    headerKeys (buildTree [([1, 2], 2), ([], 1)] (-1)) =
      dedupFirst (itemOccs [([1, 2], 2), ([], 1)]) :=
  construction_accepts_all [([1, 2], 2), ([], 1)] (-1) (by decide)
    (by decide) (by decide)

/-- Claim C9: the output accumulator is append-only — one mining call
returns the accumulator it was given, unchanged and in place, followed by
a suffix that does not depend on the accumulator.  Every itemset already
emitted is therefore never modified by any later step; in this pure
embedding each appended itemset is the fresh value insert item prefix. -/
theorem emit_append_only (f : Nat) (t : FPTree) (s : Int) (pre : Finset Nat)
    (acc : List (Finset Nat)) :
    mineTree f t s pre acc = acc ++ mineTree f t s pre [] := by
  induction f generalizing t pre acc with
  | zero => simp [mineTree]
  | succ f ih =>
    simp only [mineTree]
    apply foldl_hom_append
    intro a b
    by_cases hc : (buildTree (findPrefixPath t b) s).headerTable.isEmpty
    · simp [hc]
    · simp only [hc, Bool.false_eq_true, if_false, List.nil_append]
      rw [ih _ _ (a ++ [insert b pre]), ih _ _ [insert b pre],
        List.append_assoc]

end FPMine

namespace FPMine

theorem updateTreeC_eq :
    ∀ (items : List Nat) (st : FPTree) (inNode : Nat) (cnt : Int),
      items ≠ [] →
      updateTreeC st items inNode cnt =
        some (updateTree st items inNode cnt) := by
  intro items
  induction items with
  | nil => intro st inNode cnt h; exact absurd rfl h
  | cons i rest ih =>
    intro st inNode cnt _
    simp only [updateTreeC, updateTree]
    by_cases hr : rest.isEmpty
    · rw [if_pos hr, if_pos hr]
    · have hrne : rest ≠ [] := by
        intro he
        rw [he] at hr
        exact hr rfl
      rw [if_neg hr, if_neg hr]
      split
      · apply ih _ _ _ hrne
      · rfl

theorem buildFoldC (D : List (List Nat × Int)) :
    ∀ st : FPTree,
      D.foldl (fun o p => o.bind (fun st =>
        if (buildLocalD st.headerTable p.1).isEmpty then some st
        else updateTreeC st
          ((sortDesc (buildLocalD st.headerTable p.1)).map (·.1)) 0 p.2))
        (some st)
      = some (D.foldl (fun st p =>
        if (buildLocalD st.headerTable p.1).isEmpty then st
        else updateTree st
          ((sortDesc (buildLocalD st.headerTable p.1)).map (·.1)) 0 p.2)
        st) := by
  induction D with
  | nil => intro st; rfl
  | cons p D ihD =>
    intro st
    rw [List.foldl_cons, List.foldl_cons, Option.some_bind]
    by_cases hl : (buildLocalD st.headerTable p.1).isEmpty
    · rw [if_pos hl, if_pos hl, ihD]
    · have hLne :
          ((sortDesc (buildLocalD st.headerTable p.1)).map (·.1)) ≠ [] := by
        intro hnil
        have hlen := congrArg List.length hnil
        rw [List.length_map, length_sortDesc] at hlen
        have : buildLocalD st.headerTable p.1 = [] :=
          List.length_eq_zero.mp hlen
        rw [this] at hl
        exact hl rfl
      rw [if_neg hl, if_neg hl, updateTreeC_eq _ _ _ _ hLne]
      exact ihD _

end FPMine

namespace FPMine

/-- Claim C10: the checked construction — which fails exactly where the
Python items[0] access would fail, i.e. whenever the insertion routine is
handed an empty item sequence — never fails and agrees with the plain
construction on every input: transactions whose restriction to surviving
items is empty are skipped, and the internal recursion only continues on a
non-empty remainder. -/
theorem first_item_access_never_fails (D : List (List Nat × Int)) (s : Int) :
    buildTreeC D s = some (buildTree D s) := by
  simp only [buildTreeC, buildTree]
  by_cases hf : ((countItems D).filter (fun p => decide (s ≤ p.2))).isEmpty
  · rw [if_pos hf, if_pos hf]
  · rw [if_neg hf, if_neg hf]
    exact buildFoldC D _

end FPMine

namespace FPMine

theorem getNode_out (ns : List PNode) (j : Nat) (h : ns.length ≤ j) :
    getNode ns j = defNode := by
  rw [getNode, List.getD_eq_getElem?_getD, List.getElem?_eq_none h]
  rfl

theorem length_setNode (ns : List PNode) (j : Nat) (f : PNode → PNode) :
    (setNode ns j f).length = ns.length := by
  rw [setNode, List.length_set]

theorem getNode_set_self (ns : List PNode) (j : Nat) (f : PNode → PNode)
    (h : j < ns.length) : getNode (setNode ns j f) j = f (getNode ns j) := by
  induction ns generalizing j with
  | nil => simp at h
  | cons n ns ih =>
    cases j with
    | zero => rfl
    | succ j =>
      have hj : j < ns.length := by simpa using h
      have : getNode (n :: ns) (j + 1) = getNode ns j := rfl
      rw [this]
      have hset : setNode (n :: ns) (j + 1) f = n :: setNode ns j f := by
        rw [setNode, setNode, this]
        rfl
      rw [hset]
      have : getNode (n :: setNode ns j f) (j + 1) =
          getNode (setNode ns j f) j := rfl
      rw [this, ih j hj]

theorem getNode_set_other (ns : List PNode) (j k : Nat) (f : PNode → PNode)
    (h : k ≠ j) : getNode (setNode ns j f) k = getNode ns k := by
  induction ns generalizing j k with
  | nil => rfl
  | cons n ns ih =>
    cases j with
    | zero =>
      cases k with
      | zero => exact absurd rfl h
      | succ k => rfl
    | succ j =>
      cases k with
      | zero => rfl
      | succ k =>
        have hk : k ≠ j := fun he => h (by rw [he])
        have hset : setNode (n :: ns) (j + 1) f = n :: setNode ns j f := by
          rw [setNode, setNode]
          rfl
        rw [hset]
        have e1 : getNode (n :: setNode ns j f) (k + 1) =
            getNode (setNode ns j f) k := rfl
        have e2 : getNode (n :: ns) (k + 1) = getNode ns k := rfl
        rw [e1, e2, ih j k hk]

theorem getNode_append_lt (ns : List PNode) (x : PNode) (k : Nat)
    (h : k < ns.length) : getNode (ns ++ [x]) k = getNode ns k := by
  rw [getNode, getNode, List.getD_eq_getElem?_getD, List.getD_eq_getElem?_getD,
    List.getElem?_append_left h]

theorem getNode_append_len (ns : List PNode) (x : PNode) :
    getNode (ns ++ [x]) ns.length = x := by
  rw [getNode, List.getD_eq_getElem?_getD]
  rw [List.getElem?_append_right (le_refl ns.length)]
  simp

theorem ascend_stable (ns : List PNode)
    (hp : parentsLt ns) :
    ∀ (j f g : Nat), j < f → j < g →
      ascendNames ns f j = ascendNames ns g j := by
  intro j
  induction j using Nat.strong_induction_on with
  | _ j ih =>
    intro f g hf hg
    obtain ⟨f2, rfl⟩ : ∃ f2, f = f2 + 1 :=
      ⟨f - 1, by omega⟩
    obtain ⟨g2, rfl⟩ : ∃ g2, g = g2 + 1 :=
      ⟨g - 1, by omega⟩
    by_cases hj : j < ns.length
    · rw [ascendNames, ascendNames]
      cases hpar : (getNode ns j).parent with
      | none => rfl
      | some p =>
        have hpj : p < j := hp j hj p hpar
        show (getNode ns j).name.getD 0 :: ascendNames ns f2 p =
          (getNode ns j).name.getD 0 :: ascendNames ns g2 p
        rw [ih p hpj f2 g2 (by omega) (by omega)]
    · have hd : getNode ns j = defNode := getNode_out ns j (by omega)
      rw [ascendNames, ascendNames, hd]
      rfl

theorem ascend_congr_below (ns ns2 : List PNode) (B : Nat)
    (hag : ∀ k, k < B → (getNode ns2 k).parent = (getNode ns k).parent ∧
      (getNode ns2 k).name = (getNode ns k).name)
    (hp : ∀ k, k < B → ∀ p, (getNode ns k).parent = some p → p < k) :
    ∀ (f j : Nat), j < B → ascendNames ns2 f j = ascendNames ns f j := by
  intro f
  induction f with
  | zero => intro j _; rfl
  | succ f ih =>
    intro j hj
    rw [ascendNames, ascendNames, (hag j hj).1]
    cases hpar : (getNode ns j).parent with
    | none => rfl
    | some p =>
      have hpj : p < j := hp j hj p hpar
      show (getNode ns2 j).name.getD 0 :: ascendNames ns2 f p =
        (getNode ns j).name.getD 0 :: ascendNames ns f p
      rw [(hag j hj).2, ih p (by omega)]

theorem pathOf_parent_none (ns : List PNode) (j : Nat)
    (h : (getNode ns j).parent = none) : pathOf ns j = [] := by
  rw [pathOf]
  cases hl : ns.length with
  | zero => rfl
  | succ m =>
    rw [ascendNames, h]

theorem pathOf_unfold (ns : List PNode) (hp : parentsLt ns) (j p : Nat)
    (hj : j < ns.length) (hpar : (getNode ns j).parent = some p) :
    pathOf ns j = (getNode ns j).name.getD 0 :: pathOf ns p := by
  have hpj : p < j := hp j hj p hpar
  obtain ⟨m, hm⟩ : ∃ m, ns.length = m + 1 := ⟨ns.length - 1, by omega⟩
  rw [pathOf, pathOf, hm, ascendNames, hpar]
  show (getNode ns j).name.getD 0 :: ascendNames ns m p =
    (getNode ns j).name.getD 0 :: ascendNames ns (m + 1) p
  rw [ascend_stable ns hp p m (m + 1) (by omega) (by omega)]

theorem chainIdxs_none (ns : List PNode) : ∀ f, chainIdxs ns f none = [] := by
  intro f
  cases f <;> rfl

theorem chain_stable (ns : List PNode) (hl : linksLt ns) :
    ∀ (m j : Nat), ns.length - j ≤ m → j < ns.length →
      ∀ f g, ns.length - j ≤ f → ns.length - j ≤ g →
        chainIdxs ns f (some j) = chainIdxs ns g (some j) := by
  intro m
  induction m with
  | zero => intro j hm hj _ _ _ _; omega
  | succ m ih =>
    intro j hm hj f g hf hg
    obtain ⟨f2, rfl⟩ : ∃ f2, f = f2 + 1 := ⟨f - 1, by omega⟩
    obtain ⟨g2, rfl⟩ : ∃ g2, g = g2 + 1 := ⟨g - 1, by omega⟩
    rw [chainIdxs, chainIdxs]
    cases hlink : (getNode ns j).nodeLink with
    | none => rw [chainIdxs_none, chainIdxs_none]
    | some k =>
      obtain ⟨hjk, hk⟩ := hl j hj k hlink
      rw [ih k (by omega) hk f2 g2 (by omega) (by omega)]

theorem chain_congr (ns ns2 : List PNode) :
    ∀ (f : Nat) (h : Option Nat),
      (∀ k ∈ chainIdxs ns f h, (getNode ns2 k).nodeLink =
        (getNode ns k).nodeLink) →
      chainIdxs ns2 f h = chainIdxs ns f h := by
  intro f
  induction f with
  | zero =>
    intro h _
    cases h <;> rfl
  | succ f ih =>
    intro h hag
    cases h with
    | none => rfl
    | some j =>
      rw [chainIdxs, chainIdxs]
      have hj : j ∈ chainIdxs ns (f + 1) (some j) := by
        rw [chainIdxs]; exact List.mem_cons_self _ _
      rw [hag j hj]
      congr 1
      apply ih
      intro k hk
      apply hag
      rw [chainIdxs]
      exact List.mem_cons_of_mem _ hk

theorem chain_mem_lt (ns : List PNode) (hl : linksLt ns) :
    ∀ (f : Nat) (j : Nat), j < ns.length →
      ∀ k ∈ chainIdxs ns f (some j), k < ns.length := by
  intro f
  induction f with
  | zero => intro j _ k hk; simp [chainIdxs] at hk
  | succ f ih =>
    intro j hj k hk
    rw [chainIdxs] at hk
    rcases List.mem_cons.mp hk with rfl | hk2
    · exact hj
    · cases hlink : (getNode ns j).nodeLink with
      | none =>
        rw [hlink] at hk2
        cases f <;> simp [chainIdxs] at hk2
      | some k2 =>
        rw [hlink] at hk2
        exact ih k2 (hl j hj k2 hlink).2 k hk2

theorem lastChain_mem (ns : List PNode) (hl : linksLt ns) :
    ∀ (m j f : Nat), ns.length - j ≤ m → j < ns.length →
      ns.length - j ≤ f →
      lastChain ns f j ∈ chainIdxs ns f (some j) ∧
        (getNode ns (lastChain ns f j)).nodeLink = none ∧
        lastChain ns f j < ns.length := by
  intro m
  induction m with
  | zero => intro j f hm hj _; omega
  | succ m ih =>
    intro j f hm hj hf
    obtain ⟨f2, rfl⟩ : ∃ f2, f = f2 + 1 := ⟨f - 1, by omega⟩
    rw [lastChain, chainIdxs]
    cases hlink : (getNode ns j).nodeLink with
    | none =>
      refine ⟨List.mem_cons_self _ _, hlink, hj⟩
    | some k =>
      obtain ⟨hjk, hk⟩ := hl j hj k hlink
      obtain ⟨h1, h2, h3⟩ := ih k f2 (by omega) hk (by omega)
      exact ⟨List.mem_cons_of_mem _ h1, h2, h3⟩

theorem chain_relink (B : List PNode) (hlB : linksLt B) (newIdx : Nat)
    (hnewlink : (getNode B newIdx).nodeLink = none) (L : Nat)
    (hLlink : (getNode B L).nodeLink = none) :
    ∀ (m j f f2 : Nat), B.length - j ≤ m → j < B.length →
      B.length - j ≤ f → B.length - j + 1 ≤ f2 →
      L ∈ chainIdxs B f (some j) →
      newIdx ∉ chainIdxs B f (some j) → newIdx ≠ L →
      chainIdxs (setNode B L (fun n => { n with nodeLink := some newIdx }))
          f2 (some j)
        = chainIdxs B f (some j) ++ [newIdx] := by
  intro m
  induction m with
  | zero => intro j f f2 hm hj _ _ _ _ _; omega
  | succ m ih =>
    intro j f f2 hm hj hf hf2 hLmem hnmem hnL
    obtain ⟨f3, rfl⟩ : ∃ f3, f = f3 + 1 := ⟨f - 1, by omega⟩
    obtain ⟨f4, rfl⟩ : ∃ f4, f2 = f4 + 1 := ⟨f2 - 1, by omega⟩
    cases hlink : (getNode B j).nodeLink with
    | none =>
      have hchain : chainIdxs B (f3 + 1) (some j) = [j] := by
        rw [chainIdxs, hlink]
        cases f3 <;> rfl
      rw [hchain] at hLmem
      have hLj : L = j := by
        rcases List.mem_cons.mp hLmem with h | h
        · exact h
        · simp at h
      subst hLj
      have hjlt : L < B.length := hj
      have hset : (getNode (setNode B L
          (fun n => { n with nodeLink := some newIdx })) L).nodeLink =
          some newIdx := by
        rw [getNode_set_self _ _ _ hjlt]
      rw [hchain, chainIdxs, hset]
      have hnj : newIdx ≠ L := hnL
      have hnew2 : (getNode (setNode B L
          (fun n => { n with nodeLink := some newIdx })) newIdx).nodeLink =
          none := by
        rw [getNode_set_other _ _ _ _ hnj, hnewlink]
      obtain ⟨f5, rfl⟩ : ∃ f5, f4 = f5 + 1 := ⟨f4 - 1, by omega⟩
      rw [chainIdxs, hnew2]
      cases f5 <;> rfl
    | some k =>
      have hjL : j ≠ L := by
        intro he
        rw [he, hLlink] at hlink
        exact Option.noConfusion hlink
      obtain ⟨hjk, hk⟩ := hlB j hj k hlink
      have hset : (getNode (setNode B L
          (fun n => { n with nodeLink := some newIdx })) j).nodeLink =
          some k := by
        rw [getNode_set_other _ _ _ _ hjL, hlink]
      have hLtail : L ∈ chainIdxs B f3 (some k) := by
        rw [chainIdxs, hlink] at hLmem
        rcases List.mem_cons.mp hLmem with h | h
        · exact absurd h.symm hjL
        · exact h
      have hntail : newIdx ∉ chainIdxs B f3 (some k) := by
        intro hmem
        apply hnmem
        rw [chainIdxs, hlink]
        exact List.mem_cons_of_mem _ hmem
      rw [chainIdxs, hset, chainIdxs, hlink,
        ih k f3 f4 (by omega) hk (by omega) (by omega) hLtail hntail hnL]
      rfl

end FPMine

namespace FPMine

theorem alookup_mem {α : Type} (l : List (Nat × α)) (x : Nat) (v : α)
    (h : alookup l x = some v) : (x, v) ∈ l := by
  induction l with
  | nil => simp [alookup] at h
  | cons p rest ih =>
    obtain ⟨k, w⟩ := p
    rw [alookup] at h
    by_cases hk : k = x
    · rw [if_pos hk] at h
      subst hk
      obtain rfl : w = v := by simpa using h
      exact List.mem_cons_self _ _
    · rw [if_neg hk] at h
      exact List.mem_cons_of_mem _ (ih h)

theorem alookup_setChain_self (H : List (Nat × Int × Option Nat)) (i : Nat)
    (nh : Option Nat) :
    alookup (setChain H i nh) i =
      (alookup H i).map (fun e => (e.1, nh)) := by
  induction H with
  | nil => simp [setChain, alookup]
  | cons p rest ih =>
    obtain ⟨k, c, h⟩ := p
    by_cases hk : k = i
    · subst hk
      simp [setChain, alookup]
    · simp [setChain, alookup, hk, ih]

theorem alookup_setChain_other (H : List (Nat × Int × Option Nat))
    (i a : Nat) (nh : Option Nat) (ha : a ≠ i) :
    alookup (setChain H i nh) a = alookup H a := by
  induction H with
  | nil => simp [setChain, alookup]
  | cons p rest ih =>
    obtain ⟨k, c, h⟩ := p
    by_cases hk : k = i
    · subst hk
      have : ¬ k = a := fun he => ha (he.symm)
      simp [setChain, alookup, this]
    · by_cases hka : k = a
      · subst hka
        simp [setChain, alookup, hk]
      · simp [setChain, alookup, hk, hka, ih]

theorem alookup_append_of_none {α : Type} (l l2 : List (Nat × α)) (x : Nat)
    (h : alookup l x = none) : alookup (l ++ l2) x = alookup l2 x := by
  induction l with
  | nil => rfl
  | cons p rest ih =>
    obtain ⟨k, w⟩ := p
    rw [alookup] at h
    by_cases hk : k = x
    · rw [if_pos hk] at h
      exact Option.noConfusion h
    · rw [if_neg hk] at h
      rw [List.cons_append, alookup, if_neg hk]
      exact ih h

theorem headerKeys_mk_setChain (ns : List PNode)
    (H : List (Nat × Int × Option Nat)) (i : Nat) (nh : Option Nat) :
    headerKeys ⟨ns, setChain H i nh⟩ = headerKeys ⟨ns, H⟩ := by
  have h := headerShape_setChain H i nh
  have h2 := congrArg (fun l => l.map (fun p : Nat × Int => p.1)) h
  simpa [headerShape, headerKeys, List.map_map, Function.comp_def] using h2

theorem chainOf_eq (t : FPTree) (a : Nat) :
    chainOf t a =
      chainIdxs t.nodes t.nodes.length
        (match alookup t.headerTable a with
          | some e => e.2
          | none => none) := rfl

theorem chain_head_facts (st : FPTree) (hwf : WF st) (a ha : Nat) (ca : Int)
    (halo : alookup st.headerTable a = some (ca, some ha)) :
    (∀ k ∈ chainIdxs st.nodes st.nodes.length (some ha),
      k < st.nodes.length ∧ (getNode st.nodes k).name = some a) := by
  intro k hk
  have hold := hwf.chains a
  rw [chainOf_eq, halo] at hold
  have hkf : k ∈ (List.range st.nodes.length).filter
      (fun j => decide ((getNode st.nodes j).name = some a)) := hold ▸ hk
  rw [List.mem_filter, List.mem_range] at hkf
  exact ⟨hkf.1, by simpa using hkf.2⟩

theorem chains_other (st : FPTree) (hwf : WF st) (B2 : List PNode) (i : Nat)
    (hB2len : B2.length = st.nodes.length + 1)
    (hname : ∀ k, k < st.nodes.length →
      (getNode B2 k).name = (getNode st.nodes k).name)
    (hlink : ∀ k, k < st.nodes.length →
      (getNode st.nodes k).name ≠ some i →
      (getNode B2 k).nodeLink = (getNode st.nodes k).nodeLink)
    (hnewName : (getNode B2 st.nodes.length).name = some i)
    (a : Nat) (hai : a ≠ i)
    (H2 : List (Nat × Int × Option Nat))
    (hH2 : alookup H2 a = alookup st.headerTable a) :
    chainOf ⟨B2, H2⟩ a =
      (List.range B2.length).filter
        (fun j => decide ((getNode B2 j).name = some a)) := by
  have hold := hwf.chains a
  rw [chainOf_eq] at hold
  have hfnew : (List.range B2.length).filter
      (fun j => decide ((getNode B2 j).name = some a)) =
      (List.range st.nodes.length).filter
        (fun j => decide ((getNode st.nodes j).name = some a)) := by
    rw [hB2len, List.range_succ, List.filter_append]
    have h1 : (List.range st.nodes.length).filter
        (fun j => decide ((getNode B2 j).name = some a)) =
        (List.range st.nodes.length).filter
          (fun j => decide ((getNode st.nodes j).name = some a)) := by
      apply List.filter_congr
      intro j hj
      rw [List.mem_range] at hj
      rw [hname j hj]
    have h2 : ([st.nodes.length] : List Nat).filter
        (fun j => decide ((getNode B2 j).name = some a)) = [] := by
      have : ¬ (getNode B2 st.nodes.length).name = some a := by
        rw [hnewName]
        intro he
        exact hai (Option.some.inj he).symm
      simp [List.filter_cons, this]
    rw [h1, h2, List.append_nil]
  rw [chainOf_eq]
  show chainIdxs B2 B2.length
      (match alookup H2 a with | some e => e.2 | none => none) = _
  rw [hH2, hfnew]
  cases halo : alookup st.headerTable a with
  | none =>
    rw [halo] at hold
    rw [chainIdxs_none] at hold ⊢
    exact hold
  | some e =>
    obtain ⟨ca, slot⟩ := e
    cases slot with
    | none =>
      rw [halo] at hold
      rw [chainIdxs_none] at hold ⊢
      exact hold
    | some ha =>
      rw [halo] at hold
      show chainIdxs B2 B2.length (some ha) = _
      have hlen1 : 0 < st.nodes.length := List.length_pos.mpr hwf.nz
      have hkey := chain_head_facts st hwf a ha ca halo
      have hhamem : ha ∈ chainIdxs st.nodes st.nodes.length (some ha) := by
        obtain ⟨m, hm⟩ : ∃ m, st.nodes.length = m + 1 :=
          ⟨st.nodes.length - 1, by omega⟩
        rw [hm, chainIdxs]
        exact List.mem_cons_self _ _
      obtain ⟨hhalt, _⟩ := hkey ha hhamem
      have hstab : chainIdxs st.nodes B2.length (some ha) =
          chainIdxs st.nodes st.nodes.length (some ha) := by
        apply chain_stable st.nodes hwf.lnk st.nodes.length ha
          (by omega) hhalt <;> omega
      have hcongr : chainIdxs B2 B2.length (some ha) =
          chainIdxs st.nodes B2.length (some ha) := by
        apply chain_congr
        intro k hk
        rw [hstab] at hk
        obtain ⟨hklt, hkname⟩ := hkey k hk
        apply hlink k hklt
        rw [hkname]
        intro he
        exact hai (Option.some.inj he)
      rw [hcongr, hstab, hold]

end FPMine

namespace FPMine

theorem pathOf_out (ns : List PNode) (j : Nat) (h : ns.length ≤ j) :
    pathOf ns j = [] := by
  apply pathOf_parent_none
  rw [getNode_out ns j h]
  rfl

theorem WF_of_struct_eq (st : FPTree) (hwf : WF st) (ns2 : List PNode)
    (hlen : ns2.length = st.nodes.length)
    (hsame : ∀ k, (getNode ns2 k).name = (getNode st.nodes k).name ∧
      (getNode ns2 k).parent = (getNode st.nodes k).parent ∧
      (getNode ns2 k).nodeLink = (getNode st.nodes k).nodeLink ∧
      (getNode ns2 k).children = (getNode st.nodes k).children) :
    WF ⟨ns2, st.headerTable⟩ ∧ ∀ j, pathOf ns2 j = pathOf st.nodes j := by
  have hpaths : ∀ j, pathOf ns2 j = pathOf st.nodes j := by
    intro j
    by_cases hj : j < st.nodes.length
    · rw [pathOf, pathOf, hlen]
      exact ascend_congr_below st.nodes ns2 st.nodes.length
        (fun k _ => ⟨(hsame k).2.1, (hsame k).1⟩) (fun k hk => hwf.par k hk)
        st.nodes.length j hj
    · rw [pathOf_out ns2 j (by omega), pathOf_out st.nodes j (by omega)]
  refine ⟨⟨?_, ?_, ?_, ?_, ?_, ?_, ?_, ?_, ?_, ?_⟩, hpaths⟩
  · rw [← List.length_pos, hlen]
    exact List.length_pos.mpr hwf.nz
  · show (getNode ns2 0).parent = none
    rw [(hsame 0).2.1]
    exact hwf.rootPar
  · show (getNode ns2 0).name = none
    rw [(hsame 0).1]
    exact hwf.rootNm
  · intro j hj p hp
    rw [hlen] at hj
    rw [(hsame j).2.1] at hp
    exact hwf.par j hj p hp
  · intro j hj hp
    rw [hlen] at hj
    rw [(hsame j).2.1] at hp
    exact hwf.rootOnly j hj hp
  · intro j h0 hj
    rw [hlen] at hj
    obtain ⟨a, hna, hmem⟩ := hwf.nameKeys j h0 hj
    refine ⟨a, ?_, hmem⟩
    rw [(hsame j).1]
    exact hna
  · intro j hj
    show (pathOf ns2 j).Nodup
    rw [hlen] at hj
    rw [hpaths j]
    exact hwf.pathsOk j hj
  · intro j hj k hk
    rw [hlen] at hj
    rw [(hsame j).2.2.1] at hk
    obtain ⟨h1, h2⟩ := hwf.lnk j hj k hk
    refine ⟨h1, ?_⟩
    show k < ns2.length
    omega
  · intro j hj i2 c2 hmem
    rw [hlen] at hj
    rw [(hsame j).2.2.2] at hmem
    obtain ⟨h1, h2, h3⟩ := hwf.childOk j hj i2 c2 hmem
    refine ⟨?_, ?_, ?_⟩
    · show c2 < ns2.length
      omega
    · rw [(hsame c2).2.1]
      exact h2
    · rw [(hsame c2).1]
      exact h3
  · intro a
    have hold := hwf.chains a
    rw [chainOf_eq] at hold
    rw [chainOf_eq]
    show chainIdxs ns2 ns2.length
        (match alookup st.headerTable a with
          | some e => e.2 | none => none) = _
    rw [hlen,
      chain_congr st.nodes ns2 st.nodes.length _
        (fun k _ => (hsame k).2.2.1),
      hold]
    apply List.filter_congr
    intro j hj
    rw [(hsame j).1]

end FPMine

namespace FPMine

theorem createNode_spec (st : FPTree) (i inNode : Nat) (cnt : Int)
    (hwf : WF st) (hin : inNode < st.nodes.length)
    (hik : i ∈ headerKeys st) (hdis : i ∉ pathOf st.nodes inNode)
    (hc : alookup (getNode st.nodes inNode).children i = none) :
    WF (linkNode ⟨(setNode st.nodes inNode
        (fun n => { n with children :=
          n.children ++ [(i, st.nodes.length)] })) ++
        [⟨some i, cnt, none, some inNode, []⟩], st.headerTable⟩ i
        st.nodes.length) ∧
    headerShape (linkNode ⟨(setNode st.nodes inNode
        (fun n => { n with children :=
          n.children ++ [(i, st.nodes.length)] })) ++
        [⟨some i, cnt, none, some inNode, []⟩], st.headerTable⟩ i
        st.nodes.length).headerTable = headerShape st.headerTable ∧
    st.nodes.length ≤ (linkNode ⟨(setNode st.nodes inNode
        (fun n => { n with children :=
          n.children ++ [(i, st.nodes.length)] })) ++
        [⟨some i, cnt, none, some inNode, []⟩], st.headerTable⟩ i
        st.nodes.length).nodes.length ∧
    (∀ j, j < st.nodes.length →
      pathOf (linkNode ⟨(setNode st.nodes inNode
        (fun n => { n with children :=
          n.children ++ [(i, st.nodes.length)] })) ++
        [⟨some i, cnt, none, some inNode, []⟩], st.headerTable⟩ i
        st.nodes.length).nodes j = pathOf st.nodes j) ∧
    (alookup (getNode (linkNode ⟨(setNode st.nodes inNode
        (fun n => { n with children :=
          n.children ++ [(i, st.nodes.length)] })) ++
        [⟨some i, cnt, none, some inNode, []⟩], st.headerTable⟩ i
        st.nodes.length).nodes inNode).children i).isSome = true := by
  have hlen1 : 0 < st.nodes.length := List.length_pos.mpr hwf.nz
  set B := (setNode st.nodes inNode
      (fun n => { n with children :=
        n.children ++ [(i, st.nodes.length)] })) ++
      [⟨some i, cnt, none, some inNode, []⟩] with hB
  have hsetlen : (setNode st.nodes inNode
      (fun n => { n with children :=
        n.children ++ [(i, st.nodes.length)] })).length =
      st.nodes.length := length_setNode _ _ _
  have hBlen : B.length = st.nodes.length + 1 := by
    rw [hB, List.length_append, hsetlen]
    rfl
  have hBold : ∀ k, k < st.nodes.length → k ≠ inNode →
      getNode B k = getNode st.nodes k := by
    intro k hk hkin
    rw [hB, getNode_append_lt _ _ _ (by rw [hsetlen]; exact hk),
      getNode_set_other _ _ _ _ hkin]
  have hBin : getNode B inNode = { getNode st.nodes inNode with
      children := (getNode st.nodes inNode).children ++
        [(i, st.nodes.length)] } := by
    rw [hB, getNode_append_lt _ _ _ (by rw [hsetlen]; exact hin),
      getNode_set_self _ _ _ hin]
  have hBnew : getNode B st.nodes.length =
      ⟨some i, cnt, none, some inNode, []⟩ := by
    have h0 := getNode_append_len (setNode st.nodes inNode
      (fun n => { n with children :=
        n.children ++ [(i, st.nodes.length)] }))
      ⟨some i, cnt, none, some inNode, []⟩
    rw [hsetlen] at h0
    rw [hB]
    exact h0
  have hBname : ∀ k, k < st.nodes.length →
      (getNode B k).name = (getNode st.nodes k).name := by
    intro k hk
    by_cases hkin : k = inNode
    · subst hkin; rw [hBin]
    · rw [hBold k hk hkin]
  have hBpar : ∀ k, k < st.nodes.length →
      (getNode B k).parent = (getNode st.nodes k).parent := by
    intro k hk
    by_cases hkin : k = inNode
    · subst hkin; rw [hBin]
    · rw [hBold k hk hkin]
  have hBlink : ∀ k, k < st.nodes.length →
      (getNode B k).nodeLink = (getNode st.nodes k).nodeLink := by
    intro k hk
    by_cases hkin : k = inNode
    · subst hkin; rw [hBin]
    · rw [hBold k hk hkin]
  have hparB : parentsLt B := by
    intro j hj p hp
    rw [hBlen] at hj
    by_cases hjl : j < st.nodes.length
    · rw [hBpar j hjl] at hp
      exact hwf.par j hjl p hp
    · have hje : j = st.nodes.length := by omega
      subst hje
      rw [hBnew] at hp
      have : inNode = p := Option.some.inj hp
      omega
  have hlinkB : linksLt B := by
    intro j hj k hk
    rw [hBlen] at hj
    by_cases hjl : j < st.nodes.length
    · rw [hBlink j hjl] at hk
      obtain ⟨h1, h2⟩ := hwf.lnk j hjl k hk
      refine ⟨h1, ?_⟩
      rw [hBlen]
      omega
    · have hje : j = st.nodes.length := by omega
      subst hje
      rw [hBnew] at hk
      exact Option.noConfusion hk
  have hpathsB : ∀ j, j < st.nodes.length →
      pathOf B j = pathOf st.nodes j := by
    intro j hj
    rw [pathOf, pathOf, hBlen,
      ascend_congr_below st.nodes B st.nodes.length
        (fun k hk => ⟨hBpar k hk, hBname k hk⟩)
        (fun k hk => hwf.par k hk) (st.nodes.length + 1) j hj]
    exact ascend_stable st.nodes (fun k hk => hwf.par k hk) j
      (st.nodes.length + 1) st.nodes.length (by omega) (by omega)
  have hpathNew : pathOf B st.nodes.length =
      i :: pathOf st.nodes inNode := by
    rw [pathOf_unfold B hparB st.nodes.length inNode
      (by rw [hBlen]; omega) (by rw [hBnew]), hBnew, hpathsB inNode hin]
    rfl
  have hBchildLookup : alookup (getNode B inNode).children i =
      some st.nodes.length := by
    rw [hBin]
    show alookup ((getNode st.nodes inNode).children ++
      [(i, st.nodes.length)]) i = some st.nodes.length
    rw [alookup_append_of_none _ _ _ hc]
    simp [alookup]
  have hchildOkB : ∀ j, j < B.length → ∀ i2 c2,
      (i2, c2) ∈ (getNode B j).children →
      c2 < B.length ∧ (getNode B c2).parent = some j ∧
        (getNode B c2).name = some i2 := by
    intro j hj i2 c2 hmem
    rw [hBlen] at hj
    by_cases hjl : j < st.nodes.length
    · by_cases hjin : j = inNode
      · subst hjin
        rw [hBin] at hmem
        rcases List.mem_append.mp hmem with hmem2 | hmem2
        · obtain ⟨h1, h2, h3⟩ := hwf.childOk j hjl i2 c2 hmem2
          refine ⟨by rw [hBlen]; omega, ?_, ?_⟩
          · rw [hBpar c2 h1]
            exact h2
          · rw [hBname c2 h1]
            exact h3
        · rw [List.mem_singleton] at hmem2
          have hi2 : i2 = i := congrArg Prod.fst hmem2
          have hc2 : c2 = st.nodes.length := congrArg Prod.snd hmem2
          subst hi2
          subst hc2
          refine ⟨by rw [hBlen]; omega, ?_, ?_⟩
          · rw [hBnew]
          · rw [hBnew]
      · have hmem2 : (i2, c2) ∈ (getNode st.nodes j).children := by
          rw [← hBold j hjl hjin]
          exact hmem
        obtain ⟨h1, h2, h3⟩ := hwf.childOk j hjl i2 c2 hmem2
        refine ⟨by rw [hBlen]; omega, ?_, ?_⟩
        · rw [hBpar c2 h1]
          exact h2
        · rw [hBname c2 h1]
          exact h3
    · have hje : j = st.nodes.length := by omega
      subst hje
      rw [hBnew] at hmem
      simp at hmem
  have hsome : (alookup st.headerTable i).isSome :=
    (alookup_isSome_iff _ _).mpr hik
  obtain ⟨e, he⟩ := Option.isSome_iff_exists.mp hsome
  obtain ⟨ci, slot⟩ := e
  cases slot with
  | none =>
    simp only [linkNode, he]
    have hkeysEq : headerKeys
        ⟨B, setChain st.headerTable i (some st.nodes.length)⟩ =
        headerKeys st :=
      headerKeys_mk_setChain B st.headerTable i (some st.nodes.length)
    refine ⟨⟨?_, ?_, ?_, ?_, ?_, ?_, ?_, ?_, ?_, ?_⟩, ?_, ?_, ?_, ?_⟩
    · show B ≠ []
      rw [← List.length_pos, hBlen]
      omega
    · show (getNode B 0).parent = none
      rw [hBpar 0 hlen1]
      exact hwf.rootPar
    · show (getNode B 0).name = none
      rw [hBname 0 hlen1]
      exact hwf.rootNm
    · exact hparB
    · intro j hj hp
      rw [hBlen] at hj
      by_cases hjl : j < st.nodes.length
      · rw [hBpar j hjl] at hp
        exact hwf.rootOnly j hjl hp
      · have hje : j = st.nodes.length := by omega
        subst hje
        rw [hBnew] at hp
        exact Option.noConfusion hp
    · intro j h0 hj
      rw [hBlen] at hj
      by_cases hjl : j < st.nodes.length
      · obtain ⟨a, hna, hm⟩ := hwf.nameKeys j h0 hjl
        refine ⟨a, ?_, ?_⟩
        · rw [hBname j hjl]
          exact hna
        · rw [hkeysEq]
          exact hm
      · have hje : j = st.nodes.length := by omega
        subst hje
        refine ⟨i, ?_, ?_⟩
        · rw [hBnew]
        · rw [hkeysEq]
          exact hik
    · intro j hj
      show (pathOf B j).Nodup
      rw [hBlen] at hj
      by_cases hjl : j < st.nodes.length
      · rw [hpathsB j hjl]
        exact hwf.pathsOk j hjl
      · have hje : j = st.nodes.length := by omega
        subst hje
        rw [hpathNew]
        exact List.nodup_cons.mpr ⟨hdis, hwf.pathsOk inNode hin⟩
    · exact hlinkB
    · exact hchildOkB
    · intro a
      by_cases hai : a = i
      · subst hai
        rw [chainOf_eq]
        show chainIdxs B B.length
            (match alookup (setChain st.headerTable a
              (some st.nodes.length)) a with
              | some e => e.2 | none => none) =
          (List.range B.length).filter
            (fun j => decide ((getNode B j).name = some a))
        rw [alookup_setChain_self, he]
        show chainIdxs B B.length (some st.nodes.length) = _
        rw [hBlen, chainIdxs, hBnew]
        show st.nodes.length :: chainIdxs B st.nodes.length none = _
        rw [chainIdxs_none, List.range_succ, List.filter_append]
        have hfilter1 : (List.range st.nodes.length).filter
            (fun j => decide ((getNode B j).name = some a)) = [] := by
          have hcongr2 : (List.range st.nodes.length).filter
              (fun j => decide ((getNode B j).name = some a)) =
              (List.range st.nodes.length).filter
                (fun j => decide ((getNode st.nodes j).name = some a)) := by
            apply List.filter_congr
            intro j hj
            rw [List.mem_range] at hj
            rw [hBname j hj]
          rw [hcongr2]
          have hold := hwf.chains a
          rw [chainOf_eq, he, chainIdxs_none] at hold
          exact hold.symm
        have hfilter2 : ([st.nodes.length] : List Nat).filter
            (fun j => decide ((getNode B j).name = some a)) =
            [st.nodes.length] := by
          simp [List.filter_cons, hBnew]
        rw [hfilter1, hfilter2]
        rfl
      · exact chains_other st hwf B i hBlen hBname
          (fun k hk _ => hBlink k hk) (by rw [hBnew]) a hai _
          (alookup_setChain_other _ _ _ _ hai)
    · exact headerShape_setChain _ _ _
    · show st.nodes.length ≤ B.length
      rw [hBlen]
      omega
    · intro j hj
      show pathOf B j = pathOf st.nodes j
      exact hpathsB j hj
    · show (alookup (getNode B inNode).children i).isSome = true
      rw [hBchildLookup]
      rfl
  | some head =>
    simp only [linkNode, he]
    have hkey := chain_head_facts st hwf i head ci he
    have hheadmem : head ∈ chainIdxs st.nodes st.nodes.length
        (some head) := by
      obtain ⟨m, hm⟩ : ∃ m, st.nodes.length = m + 1 :=
        ⟨st.nodes.length - 1, by omega⟩
      rw [hm, chainIdxs]
      exact List.mem_cons_self _ _
    obtain ⟨hheadlt, hheadname⟩ := hkey head hheadmem
    have hhead1 : 1 ≤ head := by
      rcases Nat.eq_zero_or_pos head with h0 | h1
      · rw [h0, hwf.rootNm] at hheadname
        exact Option.noConfusion hheadname
      · exact h1
    have hstab : chainIdxs st.nodes B.length (some head) =
        chainIdxs st.nodes st.nodes.length (some head) := by
      apply chain_stable st.nodes (fun k hk => hwf.lnk k hk)
        st.nodes.length head (by omega) hheadlt <;> omega
    have hchainB : chainIdxs B B.length (some head) =
        chainIdxs st.nodes st.nodes.length (some head) := by
      rw [← hstab]
      apply chain_congr
      intro k hk
      rw [hstab] at hk
      exact hBlink k (hkey k hk).1
    obtain ⟨hLmem, hLlink, hLltB⟩ := lastChain_mem B hlinkB B.length head
      B.length (by omega) (by rw [hBlen]; omega) (by omega)
    obtain ⟨hLlt, hLname⟩ := hkey (lastChain B B.length head)
      (by rw [← hchainB]; exact hLmem)
    set L := lastChain B B.length head with hL
    set C := setNode B L
      (fun n => { n with nodeLink := some st.nodes.length }) with hC
    have hClen : C.length = st.nodes.length + 1 := by
      rw [hC, length_setNode, hBlen]
    have hCsame : ∀ k, (getNode C k).name = (getNode B k).name ∧
        (getNode C k).parent = (getNode B k).parent ∧
        (getNode C k).children = (getNode B k).children := by
      intro k
      by_cases hk : k = L
      · subst hk
        rw [hC, getNode_set_self _ _ _ hLltB]
        exact ⟨rfl, rfl, rfl⟩
      · rw [hC, getNode_set_other _ _ _ _ hk]
        exact ⟨rfl, rfl, rfl⟩
    have hClinkL : (getNode C L).nodeLink = some st.nodes.length := by
      rw [hC, getNode_set_self _ _ _ hLltB]
    have hClinkO : ∀ k, k ≠ L →
        (getNode C k).nodeLink = (getNode B k).nodeLink := by
      intro k hk
      rw [hC, getNode_set_other _ _ _ _ hk]
    have hparC : parentsLt C := by
      intro j hj p hp
      rw [(hCsame j).2.1] at hp
      refine hparB j ?_ p hp
      rw [hBlen]
      rw [hClen] at hj
      omega
    have hlinkC : linksLt C := by
      intro j hj k hk
      rw [hClen] at hj
      by_cases hjL : j = L
      · subst hjL
        rw [hClinkL] at hk
        have : st.nodes.length = k := Option.some.inj hk
        refine ⟨by omega, by rw [hClen]; omega⟩
      · rw [hClinkO j hjL] at hk
        obtain ⟨h1, h2⟩ := hlinkB j (by rw [hBlen]; omega) k hk
        rw [hBlen] at h2
        exact ⟨h1, by rw [hClen]; omega⟩
    have hpathsC : ∀ j, j < B.length → pathOf C j = pathOf B j := by
      intro j hj
      rw [pathOf, pathOf, hClen, ← hBlen]
      exact ascend_congr_below B C B.length
        (fun k _ => ⟨(hCsame k).2.1, (hCsame k).1⟩)
        (fun k hk => hparB k hk) B.length j hj
    have hCnew : (getNode C st.nodes.length).name = some i := by
      rw [(hCsame st.nodes.length).1, hBnew]
    refine ⟨⟨?_, ?_, ?_, ?_, ?_, ?_, ?_, ?_, ?_, ?_⟩, ?_, ?_, ?_, ?_⟩
    · show C ≠ []
      rw [← List.length_pos, hClen]
      omega
    · show (getNode C 0).parent = none
      rw [(hCsame 0).2.1, hBpar 0 hlen1]
      exact hwf.rootPar
    · show (getNode C 0).name = none
      rw [(hCsame 0).1, hBname 0 hlen1]
      exact hwf.rootNm
    · exact hparC
    · intro j hj hp
      rw [hClen] at hj
      rw [(hCsame j).2.1] at hp
      by_cases hjl : j < st.nodes.length
      · rw [hBpar j hjl] at hp
        exact hwf.rootOnly j hjl hp
      · have hje : j = st.nodes.length := by omega
        subst hje
        rw [hBnew] at hp
        exact Option.noConfusion hp
    · intro j h0 hj
      rw [hClen] at hj
      by_cases hjl : j < st.nodes.length
      · obtain ⟨a, hna, hm⟩ := hwf.nameKeys j h0 hjl
        refine ⟨a, ?_, hm⟩
        rw [(hCsame j).1, hBname j hjl]
        exact hna
      · have hje : j = st.nodes.length := by omega
        subst hje
        exact ⟨i, hCnew, hik⟩
    · intro j hj
      show (pathOf C j).Nodup
      rw [hClen] at hj
      rw [hpathsC j (by rw [hBlen]; omega)]
      by_cases hjl : j < st.nodes.length
      · rw [hpathsB j hjl]
        exact hwf.pathsOk j hjl
      · have hje : j = st.nodes.length := by omega
        subst hje
        rw [hpathNew]
        exact List.nodup_cons.mpr ⟨hdis, hwf.pathsOk inNode hin⟩
    · exact hlinkC
    · intro j hj i2 c2 hmem
      rw [(hCsame j).2.2] at hmem
      rw [hClen] at hj
      obtain ⟨h1, h2, h3⟩ := hchildOkB j (by rw [hBlen]; omega) i2 c2 hmem
      rw [hBlen] at h1
      refine ⟨by rw [hClen]; omega, ?_, ?_⟩
      · rw [(hCsame c2).2.1]
        exact h2
      · rw [(hCsame c2).1]
        exact h3
    · intro a
      by_cases hai : a = i
      · subst hai
        rw [chainOf_eq]
        show chainIdxs C C.length
            (match alookup st.headerTable a with
              | some e => e.2 | none => none) =
          (List.range C.length).filter
            (fun j => decide ((getNode C j).name = some a))
        rw [he]
        show chainIdxs C C.length (some head) = _
        have hrelink := chain_relink B hlinkB st.nodes.length
          (by rw [hBnew]) L hLlink B.length head B.length B.length
          (by omega) (by rw [hBlen]; omega) (by omega)
          (by rw [hBlen]; omega) hLmem
          (by
            intro hmem
            rw [hchainB] at hmem
            exact absurd (hkey _ hmem).1 (lt_irrefl _))
          (by omega)
        have hCeq : C.length = B.length := by
          rw [hClen, hBlen]
        have hfa : (List.range st.nodes.length).filter
            (fun j => decide ((getNode C j).name = some a)) =
            (List.range st.nodes.length).filter
              (fun j => decide ((getNode st.nodes j).name = some a)) := by
          apply List.filter_congr
          intro j hj
          rw [List.mem_range] at hj
          rw [(hCsame j).1, hBname j hj]
        have hfb : ([st.nodes.length] : List Nat).filter
            (fun j => decide ((getNode C j).name = some a)) =
            [st.nodes.length] := by
          simp [List.filter_cons, hCnew]
        have hold := hwf.chains a
        rw [chainOf_eq, he] at hold
        rw [← hC] at hrelink
        rw [hCeq, hrelink, hchainB, hold, hBlen, List.range_succ,
          List.filter_append, hfa, hfb]
      · refine chains_other st hwf C i hClen
          (fun k hk => by rw [(hCsame k).1, hBname k hk]) ?_ hCnew a hai
          st.headerTable rfl
        intro k hk hne
        have hkL : k ≠ L := by
          intro he2
          rw [he2] at hne
          exact hne hLname
        rw [hClinkO k hkL, hBlink k hk]
    · trivial
    · show st.nodes.length ≤ C.length
      rw [hClen]
      omega
    · intro j hj
      show pathOf C j = pathOf st.nodes j
      rw [hpathsC j (by rw [hBlen]; omega), hpathsB j hj]
    · show (alookup (getNode C inNode).children i).isSome = true
      rw [(hCsame inNode).2.2, hBchildLookup]
      rfl

end FPMine

namespace FPMine

theorem headerKeys_congr (t1 t2 : FPTree)
    (h : headerShape t1.headerTable = headerShape t2.headerTable) :
    headerKeys t1 = headerKeys t2 := by
  have h2 := congrArg (fun l => l.map (fun p : Nat × Int => p.1)) h
  simpa [headerShape, headerKeys, List.map_map, Function.comp_def] using h2

theorem processItem_spec (st : FPTree) (i inNode : Nat) (cnt : Int)
    (hwf : WF st) (hin : inNode < st.nodes.length)
    (hik : i ∈ headerKeys st) (hdis : i ∉ pathOf st.nodes inNode) :
    WF (processItem st i inNode cnt) ∧
    headerShape (processItem st i inNode cnt).headerTable =
      headerShape st.headerTable ∧
    st.nodes.length ≤ (processItem st i inNode cnt).nodes.length ∧
    (∀ j, j < st.nodes.length →
      pathOf (processItem st i inNode cnt).nodes j = pathOf st.nodes j) ∧
    (alookup (getNode (processItem st i inNode cnt).nodes inNode).children
      i).isSome = true := by
  cases hc : alookup (getNode st.nodes inNode).children i with
  | some c =>
    obtain ⟨hclt, hcpar, hcname⟩ :=
      hwf.childOk inNode hin i c (alookup_mem _ _ _ hc)
    have hsame : ∀ k,
        (getNode (setNode st.nodes c
          (fun n => { n with count := n.count + cnt })) k).name =
          (getNode st.nodes k).name ∧
        (getNode (setNode st.nodes c
          (fun n => { n with count := n.count + cnt })) k).parent =
          (getNode st.nodes k).parent ∧
        (getNode (setNode st.nodes c
          (fun n => { n with count := n.count + cnt })) k).nodeLink =
          (getNode st.nodes k).nodeLink ∧
        (getNode (setNode st.nodes c
          (fun n => { n with count := n.count + cnt })) k).children =
          (getNode st.nodes k).children := by
      intro k
      by_cases hk : k = c
      · subst hk
        rw [getNode_set_self _ _ _ hclt]
        exact ⟨rfl, rfl, rfl, rfl⟩
      · rw [getNode_set_other _ _ _ _ hk]
        exact ⟨rfl, rfl, rfl, rfl⟩
    obtain ⟨hwf2, hpaths⟩ :=
      WF_of_struct_eq st hwf _ (length_setNode _ _ _) hsame
    simp only [processItem, hc]
    refine ⟨hwf2, ?_, ?_, ?_, ?_⟩
    · first | trivial | rfl
    · show st.nodes.length ≤ (setNode st.nodes c
        (fun n => { n with count := n.count + cnt })).length
      rw [length_setNode]
    · intro j _
      exact hpaths j
    · show (alookup (getNode (setNode st.nodes c
        (fun n => { n with count := n.count + cnt })) inNode).children
        i).isSome = true
      rw [(hsame inNode).2.2.2, hc]
      rfl
  | none =>
    simp only [processItem, hc]
    exact createNode_spec st i inNode cnt hwf hin hik hdis hc

theorem updateTree_WF :
    ∀ (items : List Nat) (st : FPTree) (inNode : Nat) (cnt : Int),
      WF st → inNode < st.nodes.length → items.Nodup →
      (∀ x ∈ items, x ∈ headerKeys st) →
      (∀ x ∈ items, x ∉ pathOf st.nodes inNode) →
      WF (updateTree st items inNode cnt) := by
  intro items
  induction items with
  | nil =>
    intro st inNode cnt hwf _ _ _ _
    simpa [updateTree] using hwf
  | cons i rest ih =>
    intro st inNode cnt hwf hin hnd hkeys hdis
    obtain ⟨hwf1, hshape1, hlen1, hpaths1, hlook1⟩ :=
      processItem_spec st i inNode cnt hwf hin
        (hkeys i (List.mem_cons_self _ _))
        (hdis i (List.mem_cons_self _ _))
    rw [updateTree]
    by_cases hr : rest.isEmpty
    · rw [if_pos hr]
      exact hwf1
    · rw [if_neg hr]
      obtain ⟨c, hc⟩ := Option.isSome_iff_exists.mp hlook1
      rw [hc]
      show WF (updateTree (processItem st i inNode cnt) rest c cnt)
      have hinlt : inNode < (processItem st i inNode cnt).nodes.length :=
        lt_of_lt_of_le hin hlen1
      obtain ⟨hclt, hcpar, hcname⟩ :=
        hwf1.childOk inNode hinlt i c (alookup_mem _ _ _ hc)
      have hcpath : pathOf (processItem st i inNode cnt).nodes c =
          i :: pathOf st.nodes inNode := by
        rw [pathOf_unfold _ (fun k hk => hwf1.par k hk) c inNode hclt hcpar,
          hcname, hpaths1 inNode hin]
        rfl
      have hkeysEq : headerKeys (processItem st i inNode cnt) =
          headerKeys st := headerKeys_congr _ _ hshape1
      apply ih (processItem st i inNode cnt) c cnt hwf1 hclt hnd.of_cons
      · intro x hx
        rw [hkeysEq]
        exact hkeys x (List.mem_cons_of_mem _ hx)
      · intro x hx
        rw [hcpath]
        intro hmem
        rcases List.mem_cons.mp hmem with rfl | hmem2
        · exact (List.nodup_cons.mp hnd).1 hx
        · exact hdis x (List.mem_cons_of_mem _ hx) hmem2

theorem WF_init (H : List (Nat × Int × Option Nat))
    (hH : ∀ p ∈ H, p.2.2 = (none : Option Nat)) : WF ⟨[rootNode], H⟩ := by
  refine ⟨?_, ?_, ?_, ?_, ?_, ?_, ?_, ?_, ?_, ?_⟩
  · simp
  · rfl
  · rfl
  · intro j hj p hp
    have hj0 : j = 0 := by
      simp only [List.length_singleton] at hj
      omega
    subst hj0
    exact Option.noConfusion hp
  · intro j hj _
    simp at hj
    omega
  · intro j h0 hj
    simp at hj
    omega
  · intro j hj
    have hj0 : j = 0 := by
      simp only [List.length_singleton] at hj
      omega
    subst hj0
    rw [pathOf_parent_none [rootNode] 0 rfl]
    exact List.nodup_nil
  · intro j hj k hk
    have hj0 : j = 0 := by
      simp only [List.length_singleton] at hj
      omega
    subst hj0
    exact Option.noConfusion hk
  · intro j hj i2 c2 hmem
    have hj0 : j = 0 := by
      simp only [List.length_singleton] at hj
      omega
    subst hj0
    simp [getNode, rootNode] at hmem
  · intro a
    rw [chainOf_eq]
    cases halo : alookup H a with
    | none =>
      rw [chainIdxs_none]
      simp [getNode, rootNode]
    | some e =>
      have he2 : e.2 = none := hH (a, e) (alookup_mem _ _ _ halo)
      show chainIdxs [rootNode] 1 e.2 = _
      rw [he2, chainIdxs_none]
      simp [getNode, rootNode]

theorem keysOf_setVal {α : Type} (d : List (Nat × α)) (i : Nat) (v : α) :
    keysOf (setVal d i v) =
      if i ∈ keysOf d then keysOf d else keysOf d ++ [i] := by
  induction d with
  | nil => simp [setVal, keysOf]
  | cons p rest ih =>
    obtain ⟨k, w⟩ := p
    have hkeys : ∀ u : α, keysOf ((k, u) :: rest) = k :: keysOf rest :=
      fun u => rfl
    by_cases hk : k = i
    · subst hk
      simp [setVal, keysOf]
    · have hik : ¬ i = k := fun he => hk he.symm
      have hstep : keysOf (setVal ((k, w) :: rest) i v) =
          k :: keysOf (setVal rest i v) := by
        rw [setVal, if_neg hk]
        rfl
      rw [hstep, ih, hkeys]
      by_cases hi : i ∈ keysOf rest
      · rw [if_pos hi, if_pos (List.mem_cons_of_mem _ hi)]
      · have hnotc : i ∉ k :: keysOf rest := by
          rw [List.mem_cons]
          tauto
        rw [if_neg hi, if_neg hnotc, List.cons_append]

theorem buildLocalD_keys (H : List (Nat × Int × Option Nat)) (t : List Nat) :
    (∀ x ∈ keysOf (buildLocalD H t), (alookup H x).isSome) ∧
      (keysOf (buildLocalD H t)).Nodup := by
  rw [buildLocalD]
  suffices hgen : ∀ (d : List (Nat × Int)),
      (∀ x ∈ keysOf d, (alookup H x).isSome) → (keysOf d).Nodup →
      (∀ x ∈ keysOf (t.foldl (fun d i =>
        match alookup H i with
        | some e => setVal d i e.1
        | none => d) d), (alookup H x).isSome) ∧
      (keysOf (t.foldl (fun d i =>
        match alookup H i with
        | some e => setVal d i e.1
        | none => d) d)).Nodup by
    exact hgen [] (by simp [keysOf]) (by simp [keysOf])
  induction t with
  | nil => intro d h1 h2; exact ⟨h1, h2⟩
  | cons i t iht =>
    intro d h1 h2
    rw [List.foldl_cons]
    cases halo : alookup H i with
    | none =>
      exact iht d h1 h2
    | some e =>
      apply iht
      · intro x hx
        rw [keysOf_setVal] at hx
        by_cases hi : i ∈ keysOf d
        · rw [if_pos hi] at hx
          exact h1 x hx
        · rw [if_neg hi] at hx
          rcases List.mem_append.mp hx with hx2 | hx2
          · exact h1 x hx2
          · rw [List.mem_singleton] at hx2
            subst hx2
            rw [halo]
            rfl
      · rw [keysOf_setVal]
        by_cases hi : i ∈ keysOf d
        · rw [if_pos hi]
          exact h2
        · rw [if_neg hi]
          refine h2.append (List.nodup_singleton i) ?_
          intro x hx hx2
          rw [List.mem_singleton] at hx2
          subst hx2
          exact hi hx

theorem insD_perm (x : Nat × Int) (l : List (Nat × Int)) :
    List.Perm (insD x l) (x :: l) := by
  induction l with
  | nil => exact List.Perm.refl _
  | cons y ys ih =>
    rw [insD]
    by_cases hy : y.2 ≤ x.2
    · rw [if_pos hy]
    · rw [if_neg hy]
      exact List.Perm.trans (List.Perm.cons y ih) (List.Perm.swap x y ys)

theorem sortDesc_perm (l : List (Nat × Int)) :
    List.Perm (sortDesc l) l := by
  induction l with
  | nil => exact List.Perm.refl _
  | cons x xs ih =>
    rw [sortDesc]
    exact List.Perm.trans (insD_perm x (sortDesc xs)) (List.Perm.cons x ih)

theorem insA_perm (x : Nat × Int) (l : List (Nat × Int)) :
    List.Perm (insA x l) (x :: l) := by
  induction l with
  | nil => exact List.Perm.refl _
  | cons y ys ih =>
    rw [insA]
    by_cases hy : x.2 ≤ y.2
    · rw [if_pos hy]
    · rw [if_neg hy]
      exact List.Perm.trans (List.Perm.cons y ih) (List.Perm.swap x y ys)

theorem sortAsc_perm (l : List (Nat × Int)) :
    List.Perm (sortAsc l) l := by
  induction l with
  | nil => exact List.Perm.refl _
  | cons x xs ih =>
    rw [sortAsc]
    exact List.Perm.trans (insA_perm x (sortAsc xs)) (List.Perm.cons x ih)

theorem buildTree_WF (D : List (List Nat × Int)) (s : Int) :
    WF (buildTree D s) := by
  simp only [buildTree]
  split
  · exact WF_init [] (by simp)
  · have main : ∀ (E : List (List Nat × Int)) (st : FPTree), WF st →
        WF (E.foldl (fun st p =>
          if (buildLocalD st.headerTable p.1).isEmpty then st
          else updateTree st
            ((sortDesc (buildLocalD st.headerTable p.1)).map (·.1)) 0 p.2)
          st) := by
      intro E
      induction E with
      | nil => intro st hwf; exact hwf
      | cons p E ihE =>
        intro st hwf
        rw [List.foldl_cons]
        apply ihE
        by_cases hl : (buildLocalD st.headerTable p.1).isEmpty
        · rw [if_pos hl]
          exact hwf
        · rw [if_neg hl]
          obtain ⟨hsub, hnd⟩ := buildLocalD_keys st.headerTable p.1
          have hperm : List.Perm
              ((sortDesc (buildLocalD st.headerTable p.1)).map (·.1))
              (keysOf (buildLocalD st.headerTable p.1)) :=
            (sortDesc_perm _).map _
          apply updateTree_WF _ st 0 p.2 hwf (List.length_pos.mpr hwf.nz)
          · exact hperm.nodup_iff.mpr hnd
          · intro x hx
            have hx2 : x ∈ keysOf (buildLocalD st.headerTable p.1) :=
              hperm.mem_iff.mp hx
            exact (alookup_isSome_iff _ _).mp (hsub x hx2)
          · intro x _
            rw [pathOf_parent_none st.nodes 0 hwf.rootPar]
            exact List.not_mem_nil x
    apply main
    apply WF_init
    intro p hp
    rw [List.mem_map] at hp
    obtain ⟨q, _, rfl⟩ := hp
    rfl

end FPMine

namespace FPMine

theorem mem_setListVal (acc : List (List Nat × Int)) (k : List Nat) (v : Int)
    (x : List Nat × Int) (hx : x ∈ setListVal acc k v) :
    x ∈ acc ∨ x = (k, v) := by
  induction acc with
  | nil =>
    simp [setListVal] at hx
    exact Or.inr hx
  | cons p rest ih =>
    obtain ⟨k0, w⟩ := p
    rw [setListVal] at hx
    by_cases hk : k0 = k
    · rw [if_pos hk] at hx
      rcases List.mem_cons.mp hx with rfl | hx2
      · exact Or.inr (by rw [hk])
      · exact Or.inl (List.mem_cons_of_mem _ hx2)
    · rw [if_neg hk] at hx
      rcases List.mem_cons.mp hx with rfl | hx2
      · exact Or.inl (List.mem_cons_self _ _)
      · rcases ih hx2 with h | h
        · exact Or.inl (List.mem_cons_of_mem _ h)
        · exact Or.inr h

theorem findPrefix_src (t : FPTree) (b : Nat) :
    ∀ e ∈ findPrefixPath t b, ∃ j, j ∈ chainOf t b ∧
      1 < (pathOf t.nodes j).length ∧
      e = (asFrozen (pathOf t.nodes j).tail, (getNode t.nodes j).count) := by
  rw [findPrefixPath]
  suffices hgen : ∀ (L : List Nat), (∀ j ∈ L, j ∈ chainOf t b) →
      ∀ (acc : List (List Nat × Int)),
      (∀ e ∈ acc, ∃ j, j ∈ chainOf t b ∧
        1 < (pathOf t.nodes j).length ∧
        e = (asFrozen (pathOf t.nodes j).tail, (getNode t.nodes j).count)) →
      ∀ e ∈ L.foldl (fun acc j =>
        if 1 < (ascendNames t.nodes t.nodes.length j).length then
          setListVal acc (asFrozen (ascendNames t.nodes t.nodes.length j).tail)
            (getNode t.nodes j).count
        else acc) acc,
      ∃ j, j ∈ chainOf t b ∧ 1 < (pathOf t.nodes j).length ∧
        e = (asFrozen (pathOf t.nodes j).tail, (getNode t.nodes j).count) by
    intro e he
    exact hgen (chainOf t b) (fun j hj => hj) [] (by simp) e he
  intro L
  induction L with
  | nil =>
    intro _ acc hacc e he
    exact hacc e he
  | cons j0 L ihL =>
    intro hL acc hacc e he
    rw [List.foldl_cons] at he
    refine ihL (fun j hj => hL j (List.mem_cons_of_mem _ hj)) _ ?_ e he
    intro e2 he2
    by_cases hcond : 1 < (ascendNames t.nodes t.nodes.length j0).length
    · rw [if_pos hcond] at he2
      rcases mem_setListVal _ _ _ _ he2 with h | h
      · exact hacc e2 h
      · exact ⟨j0, hL j0 (List.mem_cons_self _ _), hcond, h⟩
    · rw [if_neg hcond] at he2
      exact hacc e2 he2

theorem pathOf_cons (t : FPTree) (hwf : WF t) (j a : Nat)
    (hj : j < t.nodes.length) (hname : (getNode t.nodes j).name = some a) :
    pathOf t.nodes j = a :: (pathOf t.nodes j).tail ∧
      a ∉ (pathOf t.nodes j).tail := by
  have hj0 : j ≠ 0 := by
    intro he
    rw [he, hwf.rootNm] at hname
    exact Option.noConfusion hname
  obtain ⟨p, hp⟩ : ∃ p, (getNode t.nodes j).parent = some p := by
    cases hpc : (getNode t.nodes j).parent with
    | none => exact absurd (hwf.rootOnly j hj hpc) hj0
    | some p => exact ⟨p, rfl⟩
  have hunf := pathOf_unfold t.nodes (fun k hk => hwf.par k hk) j p hj hp
  rw [hname] at hunf
  have hunf2 : pathOf t.nodes j = a :: pathOf t.nodes p := hunf
  have htail : (pathOf t.nodes j).tail = pathOf t.nodes p := by
    rw [hunf2]
    rfl
  constructor
  · rw [htail]
    exact hunf2
  · rw [htail]
    have hnd := hwf.pathsOk j hj
    rw [hunf2] at hnd
    exact (List.nodup_cons.mp hnd).1

theorem pathOf_mem_keys (t : FPTree) (hwf : WF t) :
    ∀ j, j < t.nodes.length → ∀ x ∈ pathOf t.nodes j, x ∈ headerKeys t := by
  intro j
  induction j using Nat.strong_induction_on with
  | _ j ih =>
    intro hj x hx
    cases hp : (getNode t.nodes j).parent with
    | none =>
      rw [pathOf_parent_none _ _ hp] at hx
      simp at hx
    | some p =>
      have hpj : p < j := hwf.par j hj p hp
      rw [pathOf_unfold t.nodes (fun k hk => hwf.par k hk) j p hj hp] at hx
      rcases List.mem_cons.mp hx with rfl | hx2
      · have hj0 : j ≠ 0 := by
          intro he
          rw [he, hwf.rootPar] at hp
          exact Option.noConfusion hp
        obtain ⟨a, hna, hm⟩ := hwf.nameKeys j (Nat.pos_of_ne_zero hj0) hj
        rw [hna]
        exact hm
      · exact ih p hpj (by omega) x hx2

theorem chainOf_mem_facts (t : FPTree) (hwf : WF t) (b : Nat) :
    ∀ j ∈ chainOf t b, j < t.nodes.length ∧
      (getNode t.nodes j).name = some b := by
  intro j hj
  rw [hwf.chains b, List.mem_filter, List.mem_range] at hj
  exact ⟨hj.1, by simpa using hj.2⟩

theorem mem_insNat (x y : Nat) (l : List Nat) :
    y ∈ insNat x l ↔ y ∈ x :: l := by
  induction l with
  | nil => simp [insNat]
  | cons z zs ih =>
    rw [insNat]
    by_cases hz : x ≤ z
    · rw [if_pos hz]
    · rw [if_neg hz]
      rw [List.mem_cons, ih]
      simp [List.mem_cons]
      tauto

theorem mem_sortNat (y : Nat) (l : List Nat) : y ∈ sortNat l ↔ y ∈ l := by
  induction l with
  | nil => simp [sortNat]
  | cons x xs ih =>
    rw [sortNat, mem_insNat, List.mem_cons, ih, List.mem_cons]

theorem mem_asFrozen (x : Nat) (l : List Nat) :
    x ∈ asFrozen l ↔ x ∈ l := by
  rw [asFrozen, mem_sortNat, List.mem_dedup]

theorem patternBase_entries_wf (t : FPTree) (hwf : WF t) (b : Nat) :
    (∀ S c, (S, c) ∈ findPrefixPath t b →
      ∃ j, j ∈ chainOf t b ∧ (getNode t.nodes j).name = some b ∧
        c = (getNode t.nodes j).count ∧
        S = asFrozen (pathOf t.nodes j).tail ∧
        pathOf t.nodes j = b :: (pathOf t.nodes j).tail ∧
        1 < (pathOf t.nodes j).length ∧
        (getNode t.nodes j).parent ≠ some 0 ∧
        b ∉ S ∧ (∀ x ∈ S, x ∈ headerKeys t)) ∧
    (∀ j ∈ chainOf t b, (getNode t.nodes j).parent = some 0 →
      (pathOf t.nodes j).length = 1) := by
  have hroot0 : pathOf t.nodes 0 = [] :=
    pathOf_parent_none t.nodes 0 hwf.rootPar
  constructor
  · intro S c hmem
    obtain ⟨j, hjchain, hlen, he⟩ := findPrefix_src t b (S, c) hmem
    obtain ⟨hjlt, hjname⟩ := chainOf_mem_facts t hwf b j hjchain
    have hS : S = asFrozen (pathOf t.nodes j).tail :=
      congrArg Prod.fst he
    have hceq : c = (getNode t.nodes j).count := congrArg Prod.snd he
    obtain ⟨hcons, hnotin⟩ := pathOf_cons t hwf j b hjlt hjname
    refine ⟨j, hjchain, hjname, hceq, hS, hcons, hlen, ?_, ?_, ?_⟩
    · intro hp0
      have := pathOf_unfold t.nodes (fun k hk => hwf.par k hk) j 0 hjlt hp0
      rw [hroot0] at this
      rw [this] at hlen
      simp at hlen
    · rw [hS, mem_asFrozen]
      exact hnotin
    · intro x hx
      rw [hS, mem_asFrozen] at hx
      refine pathOf_mem_keys t hwf j hjlt x ?_
      rw [hcons]
      exact List.mem_cons_of_mem _ hx
  · intro j hjchain hp0
    obtain ⟨hjlt, _⟩ := chainOf_mem_facts t hwf b j hjchain
    have := pathOf_unfold t.nodes (fun k hk => hwf.par k hk) j 0 hjlt hp0
    rw [hroot0] at this
    rw [this]
    rfl

end FPMine

namespace FPMine

theorem headerKeys_sub_occs (E : List (List Nat × Int)) (s : Int) (x : Nat)
    (hx : x ∈ headerKeys (buildTree E s)) : x ∈ itemOccs E := by
  rw [headerKeys_eq_keysOf, buildTree_header] at hx
  rw [keysOf, List.mem_map] at hx
  obtain ⟨p, hp, rfl⟩ := hx
  rw [List.mem_filter] at hp
  have hmem : p.1 ∈ keysOf (countItems E) :=
    List.mem_map.mpr ⟨p, hp.1, rfl⟩
  rw [countItems_keys] at hmem
  exact (mem_dedupFirst _ _).mp hmem

theorem headerKeys_buildTree_nodup (E : List (List Nat × Int)) (s : Int) :
    (headerKeys (buildTree E s)).Nodup := by
  rw [headerKeys_eq_keysOf, buildTree_header]
  exact List.Nodup.sublist ((List.filter_sublist _).map _)
    (countItems_keys_nodup E)

theorem cond_keys_sub (t : FPTree) (hwf : WF t) (b : Nat) (s : Int) :
    ∀ x ∈ headerKeys (buildTree (findPrefixPath t b) s),
      x ∈ headerKeys t ∧ x ≠ b := by
  intro x hx
  have hocc := headerKeys_sub_occs _ s x hx
  rw [itemOccs, List.mem_flatten] at hocc
  obtain ⟨l, hl, hxl⟩ := hocc
  rw [List.mem_map] at hl
  obtain ⟨e, he, rfl⟩ := hl
  obtain ⟨S, c⟩ := e
  obtain ⟨j, _, _, _, hS, _, _, _, hbS, hSkeys⟩ :=
    (patternBase_entries_wf t hwf b).1 S c he
  constructor
  · exact hSkeys x hxl
  · intro he2
    rw [he2] at hxl
    exact hbS hxl

theorem length_lt_of_sub (l m : List Nat) (b : Nat) (hl : l.Nodup)
    (hm : m.Nodup) (hsub : ∀ x ∈ l, x ∈ m ∧ x ≠ b) (hb : b ∈ m) :
    l.length < m.length := by
  have h1 : l.toFinset ⊆ m.toFinset.erase b := by
    intro x hx
    rw [List.mem_toFinset] at hx
    obtain ⟨hxm, hxb⟩ := hsub x hx
    exact Finset.mem_erase.mpr ⟨hxb, List.mem_toFinset.mpr hxm⟩
  have h2 := Finset.card_le_card h1
  have h3 := Finset.card_erase_lt_of_mem (List.mem_toFinset.mpr hb)
  rw [List.toFinset_card_of_nodup hl] at h2
  rw [List.toFinset_card_of_nodup hm] at h3
  omega

theorem bigL_sub (t : FPTree) :
    ∀ b ∈ (sortAsc (t.headerTable.map (fun p => (p.1, p.2.1)))).map (·.1),
      b ∈ headerKeys t := by
  intro b hb
  rw [List.mem_map] at hb
  obtain ⟨q, hq, rfl⟩ := hb
  have hq2 := (sortAsc_perm _).mem_iff.mp hq
  rw [List.mem_map] at hq2
  obtain ⟨p, hp, rfl⟩ := hq2
  exact List.mem_map.mpr ⟨p, hp, rfl⟩

theorem foldl_congr_mem {α β : Type} (P : α → Prop)
    (step1 step2 : β → α → β) :
    ∀ (L : List α), (∀ b ∈ L, P b) →
      (∀ acc b, P b → step1 acc b = step2 acc b) →
      ∀ acc, L.foldl step1 acc = L.foldl step2 acc := by
  intro L
  induction L with
  | nil => intro _ _ acc; rfl
  | cons b L ihL =>
    intro hP hstep acc
    rw [List.foldl_cons, List.foldl_cons,
      hstep acc b (hP b (List.mem_cons_self _ _))]
    exact ihL (fun x hx => hP x (List.mem_cons_of_mem _ hx)) hstep _

theorem mineTree_stable :
    ∀ (n : Nat) (t : FPTree), WF t → (headerKeys t).Nodup →
      (headerKeys t).length ≤ n →
      ∀ (s : Int) (pre : Finset Nat) (acc : List (Finset Nat)) (f g : Nat),
        n < f → n < g →
        mineTree f t s pre acc = mineTree g t s pre acc := by
  intro n
  induction n using Nat.strong_induction_on with
  | _ n ih =>
    intro t hwf hnd hle s pre acc f g hf hg
    obtain ⟨f2, rfl⟩ : ∃ f2, f = f2 + 1 := ⟨f - 1, by omega⟩
    obtain ⟨g2, rfl⟩ : ∃ g2, g = g2 + 1 := ⟨g - 1, by omega⟩
    rw [mineTree, mineTree]
    apply foldl_congr_mem (fun b => b ∈ headerKeys t) _ _ _ (bigL_sub t)
    intro acc2 b hb
    show (if (buildTree (findPrefixPath t b) s).headerTable.isEmpty then
        acc2 ++ [insert b pre]
      else mineTree f2 (buildTree (findPrefixPath t b) s) s (insert b pre)
        (acc2 ++ [insert b pre])) =
      (if (buildTree (findPrefixPath t b) s).headerTable.isEmpty then
        acc2 ++ [insert b pre]
      else mineTree g2 (buildTree (findPrefixPath t b) s) s (insert b pre)
        (acc2 ++ [insert b pre]))
    by_cases hcond : (buildTree (findPrefixPath t b) s).headerTable.isEmpty
    · rw [if_pos hcond, if_pos hcond]
    · rw [if_neg hcond, if_neg hcond]
      have hlt : (headerKeys (buildTree (findPrefixPath t b) s)).length <
          (headerKeys t).length :=
        length_lt_of_sub _ _ b (headerKeys_buildTree_nodup _ _) hnd
          (cond_keys_sub t hwf b s) hb
      exact ih (headerKeys (buildTree (findPrefixPath t b) s)).length
        (by omega) _ (buildTree_WF _ _) (headerKeys_buildTree_nodup _ _)
        (le_refl _) s (insert b pre) (acc2 ++ [insert b pre]) f2 g2
        (by omega) (by omega)

end FPMine

namespace FPMine

/-- Claim C8: in every tree the program builds, the header chain of an
item with a HeaderEntry is exactly the increasing (creation-order) list of
the indices of the nodes bearing that item: every such node appears,
exactly once, in the order the nodes were created. -/
theorem chain_visits_all_nodes_once (D : List (List Nat × Int)) (s : Int)
    (a : Nat) (ha : a ∈ headerKeys (buildTree D s)) :
    chainOf (buildTree D s) a =
      (List.range (buildTree D s).nodes.length).filter
        (fun j => decide ((getNode (buildTree D s).nodes j).name = some a)) :=
  (buildTree_WF D s).chains a

/-- Witness for C8 at a concrete input. -/
theorem chain_visits_all_nodes_once_witness :
    2 ∈ headerKeys (buildTree [([1, 2], 1), ([2], 1)] 1) ∧
      chainOf (buildTree [([1, 2], 1), ([2], 1)] 1) 2 =
        (List.range (buildTree [([1, 2], 1), ([2], 1)] 1).nodes.length).filter
          (fun j => decide ((getNode
            (buildTree [([1, 2], 1), ([2], 1)] 1).nodes j).name = some 2)) :=
  ⟨by decide, chain_visits_all_nodes_once [([1, 2], 1), ([2], 1)] 1 2
    (by decide)⟩

/-- Claim C7: every entry of a conditional pattern base extracted from a
built tree comes from a chain node of the item: its weight is that node's
count and its key is the frozenset of the node's ascent path without its
first element — the labels strictly between the node and the root, which
exclude the node's own item (the path starts with it and is
duplicate-free), exclude the root sentinel (only header items, never the
sentinel, appear), and a chain node sitting directly below the root has an
ascent path of length one and so contributes nothing. -/
theorem pattern_base_entry_shape (D : List (List Nat × Int)) (s : Int)
    (b : Nat) (hb : b ∈ headerKeys (buildTree D s)) (S : List Nat) (c : Int)
    (hmem : (S, c) ∈ findPrefixPath (buildTree D s) b) :
    (∃ j, j ∈ chainOf (buildTree D s) b ∧
      (getNode (buildTree D s).nodes j).name = some b ∧
      c = (getNode (buildTree D s).nodes j).count ∧
      S = asFrozen (pathOf (buildTree D s).nodes j).tail ∧
      pathOf (buildTree D s).nodes j =
        b :: (pathOf (buildTree D s).nodes j).tail ∧
      1 < (pathOf (buildTree D s).nodes j).length ∧
      (getNode (buildTree D s).nodes j).parent ≠ some 0 ∧
      b ∉ S ∧ (∀ x ∈ S, x ∈ headerKeys (buildTree D s))) ∧
    (∀ j ∈ chainOf (buildTree D s) b,
      (getNode (buildTree D s).nodes j).parent = some 0 →
      (pathOf (buildTree D s).nodes j).length = 1) :=
  ⟨(patternBase_entries_wf _ (buildTree_WF D s) b).1 S c hmem,
    (patternBase_entries_wf _ (buildTree_WF D s) b).2⟩

/-- Witness for C7 at a concrete input. -/
theorem pattern_base_entry_shape_witness :
    (2 ∈ headerKeys (buildTree [([1, 2], 1)] 1) ∧
      ([1], (1 : Int)) ∈ findPrefixPath (buildTree [([1, 2], 1)] 1) 2) ∧
    ((∃ j, j ∈ chainOf (buildTree [([1, 2], 1)] 1) 2 ∧
      (getNode (buildTree [([1, 2], 1)] 1).nodes j).name = some 2 ∧
      (1 : Int) = (getNode (buildTree [([1, 2], 1)] 1).nodes j).count ∧
      [1] = asFrozen (pathOf (buildTree [([1, 2], 1)] 1).nodes j).tail ∧
      pathOf (buildTree [([1, 2], 1)] 1).nodes j =
        2 :: (pathOf (buildTree [([1, 2], 1)] 1).nodes j).tail ∧
      1 < (pathOf (buildTree [([1, 2], 1)] 1).nodes j).length ∧
      (getNode (buildTree [([1, 2], 1)] 1).nodes j).parent ≠ some 0 ∧
      2 ∉ ([1] : List Nat) ∧
      (∀ x ∈ ([1] : List Nat), x ∈ headerKeys (buildTree [([1, 2], 1)] 1))) ∧
    (∀ j ∈ chainOf (buildTree [([1, 2], 1)] 1) 2,
      (getNode (buildTree [([1, 2], 1)] 1).nodes j).parent = some 0 →
      (pathOf (buildTree [([1, 2], 1)] 1).nodes j).length = 1)) :=
  ⟨⟨by decide, by decide⟩,
    pattern_base_entry_shape [([1, 2], 1)] 1 2 (by decide) [1] 1 (by decide)⟩

/-- Claim C6: mining terminates, with recursion depth bounded by the number
of distinct items of the original multiset — formalised by fuel
stabilisation: any two fuel values exceeding the number of distinct
occurring items give the same mining result, so fuel equal to that number
(one recursion level per unit of fuel) already suffices. -/
theorem mineTree_depth_bounded (D : List (List Nat × Int)) (s : Int)
    (pre : Finset Nat) (acc : List (Finset Nat)) (f g : Nat)
    (hf : (dedupFirst (itemOccs D)).length < f)
    (hg : (dedupFirst (itemOccs D)).length < g) :
    mineTree f (buildTree D s) s pre acc =
      mineTree g (buildTree D s) s pre acc := by
  apply mineTree_stable (dedupFirst (itemOccs D)).length (buildTree D s)
    (buildTree_WF D s) (headerKeys_buildTree_nodup D s) ?_ s pre acc f g hf hg
  rw [headerKeys_eq_keysOf, buildTree_header, ← countItems_keys]
  exact List.Sublist.length_le ((List.filter_sublist _).map _)

/-- Witness for C6 at a concrete input. -/
theorem mineTree_depth_bounded_witness :
    mineTree 3 (buildTree [([1, 2], 1)] 1) 1 ∅ [] =
      mineTree 4 (buildTree [([1, 2], 1)] 1) 1 ∅ [] :=
  mineTree_depth_bounded [([1, 2], 1)] 1 ∅ [] 3 4 (by decide) (by decide)

end FPMine
